import Mathlib

/-!
# Verification of the Feedly AI Overlay entry-annotation engine

A shallow embedding, in Lean 4, of the in-page annotation engine of the
AI-Feedly-Curator extension (content script `scanEntries` /
`fastProcessMutations` / `renderItem` / `getEntryId` / `updateTooltipPos` /
`debouncedScan`, and the background worker's score cache
`getCached` / `mergeCache`), together with theorems settling the testable
properties of its design document.

Modelling conventions:
* JavaScript numbers that hold pointer coordinates, sizes and scores are
  modelled as exact rationals (`Rat`); timestamps (`Date.now()`) as `Nat`
  milliseconds.
* Nullable / optional JavaScript values are `Option`; JavaScript string
  truthiness (`""` and `null`/`undefined` falsy) is `truthyS`.
* The DOM is a rose tree `Dom` of elements (tag, attributes, classes,
  inline style, own text, children).  `querySelector` is first match in
  pre-order over strict descendants, as in the DOM.
* In-place DOM mutation is threaded functionally: every mutating step of
  the source becomes a tree-to-tree function applied in the source's order.
-/

namespace FeedlyAI

/-! ## JavaScript-value helpers -/

/-- JS string truthiness: `null`/`undefined` and `""` are falsy. -/
def truthyS : Option String → Bool
  | none => false
  | some s => s ≠ ""

/-- JS `a || b` on nullable strings: yields `a` when truthy, else `b`. -/
def jsOrS (a b : Option String) : Option String :=
  if truthyS a then a else b

/-! ## Background worker: score cache (src/extension/background.js)

`CACHE_TTL_MS = 30 * 1000`; `getCached` partitions requested ids into
fresh cache hits and `missing`; `mergeCache` stamps fetched verdicts with
the current time.  The `get_scores` handler serves hits from the cache
and issues one outbound native-host request carrying exactly the
`missing` ids (no request at all when `missing` is empty). -/

/-- `const CACHE_TTL_MS = 30 * 1000;` (background.js line 6). -/
def CACHE_TTL_MS : Nat := 30 * 1000

/-- An entry of the background `cache` map: insertion timestamp and the
cached verdict value (the verdict itself is opaque to the cache logic, so
it is a type parameter). -/
structure CacheEntry (V : Type) where
  ts : Nat
  value : V
deriving Repr, DecidableEq

/-- The background `cache` (a JS `Map`), as an association list keyed by
identity; `Map.set` replaces an existing binding. -/
def CacheMap (V : Type) := List (String × CacheEntry V)

/-- JS `Map.get`. -/
def mapGet {A : Type} (m : List (String × A)) (k : String) : Option A :=
  (m.find? (fun p => p.1 == k)).map (·.2)

/-- JS `Map.set k v`: replace the binding of `k` in place if present
(keeping insertion order), else append. -/
def mapSet {A : Type} (m : List (String × A)) (k : String) (v : A) :
    List (String × A) :=
  match m with
  | [] => [(k, v)]
  | p :: rest => if p.1 == k then (k, v) :: rest else p :: mapSet rest k v

/-- JS `Map.delete k`. -/
def mapDelete {A : Type} (m : List (String × A)) (k : String) :
    List (String × A) :=
  m.filter (fun p => p.1 != k)

/-- JS `Map.has k`. -/
def mapHas {A : Type} (m : List (String × A)) (k : String) : Bool :=
  (m.find? (fun p => p.1 == k)).isSome

/-- `getCached(ids)` (background.js lines 263–276): for each requested id,
serve the cached value if `now - cached.ts < CACHE_TTL_MS`, else add the
id to `missing`. -/
def getCached {V : Type} (cache : CacheMap V) (now : Nat) (ids : List String) :
    List (String × V) × List String :=
  ids.foldl
    (fun (acc : List (String × V) × List String) id =>
      match mapGet cache id with
      | some c =>
          if now - c.ts < CACHE_TTL_MS then (acc.1 ++ [(id, c.value)], acc.2)
          else (acc.1, acc.2 ++ [id])
      | none => (acc.1, acc.2 ++ [id]))
    ([], [])

/-- `mergeCache(items)` (background.js lines 278–283): store every fetched
verdict with the single timestamp taken at merge time. -/
def mergeCache {V : Type} (cache : CacheMap V) (ts : Nat)
    (items : List (String × V)) : CacheMap V :=
  items.foldl (fun c p => mapSet c p.1 (⟨ts, p.2⟩ : CacheEntry V)) cache

/-- The ids the `get_scores` handler sends to the native host
(background.js lines 310–335): exactly `getCached(...).missing`; when the
list is empty the handler answers from cache without any outbound call. -/
def nativeRequestIds {V : Type} (cache : CacheMap V) (now : Nat)
    (ids : List String) : List String :=
  (getCached cache now ids).2

/-! ## A DOM model

Elements carry a tag, attributes, CSS classes, inline style and their own
text content, plus child elements.  Text interleaving below element
granularity is not modelled: an element's `textContent` is its own text
followed by its descendants' in pre-order.  `querySelector` returns the
first match in pre-order over strict descendants, as in the DOM. -/

/-- A DOM element. -/
inductive Dom where
  | el (tag : String) (attrs : List (String × String))
      (classes : List String) (style : List (String × String))
      (text : String) (children : List Dom)

namespace Dom

def tag : Dom → String | .el t _ _ _ _ _ => t
def attrs : Dom → List (String × String) | .el _ a _ _ _ _ => a
def classes : Dom → List String | .el _ _ c _ _ _ => c
def style : Dom → List (String × String) | .el _ _ _ s _ _ => s
def text : Dom → String | .el _ _ _ _ x _ => x
def children : Dom → List Dom | .el _ _ _ _ _ ch => ch

/-- `getAttribute`: `none` plays the role of JS `null`. -/
def getAttr (d : Dom) (name : String) : Option String :=
  (d.attrs.find? (fun p => p.1 == name)).map (·.2)

/-- Attribute presence (what a CSS `[attr]` selector tests). -/
def hasAttr (d : Dom) (name : String) : Bool :=
  (d.attrs.find? (fun p => p.1 == name)).isSome

/-- `classList.contains`. -/
def hasClass (d : Dom) (c : String) : Bool := d.classes.contains c

/-- Does the element's class list meet any of the given classes? -/
def hasAnyClass (d : Dom) (cs : List String) : Bool :=
  cs.any (fun c => d.hasClass c)

end Dom

mutual
/-- Pre-order listing of a forest: each root followed by its descendants. -/
def preorderList : List Dom → List Dom
  | [] => []
  | d :: ds => preorderOne d ++ preorderList ds

/-- Pre-order listing of one subtree. -/
def preorderOne : Dom → List Dom
  | .el t a c s x ch => .el t a c s x ch :: preorderList ch
end

/-- All strict descendants of an element, in pre-order. -/
def Dom.descendants (d : Dom) : List Dom := preorderList d.children

/-- `el.querySelector(sel)`: first strict descendant matching, pre-order. -/
def Dom.qsel (d : Dom) (p : Dom → Bool) : Option Dom :=
  d.descendants.find? p

/-- Truthiness of `el.querySelector(sel)` (non-null check). -/
def Dom.qselB (d : Dom) (p : Dom → Bool) : Bool := (d.qsel p).isSome

/-- `textContent`: the element's own text and its descendants', pre-order. -/
def Dom.textContent (d : Dom) : String :=
  String.join ((preorderList [d]).map Dom.text)

/-- Number of elements of the subtree rooted at `d`, `d` included (the
"element count under the node" of the re-render idempotence property). -/
def countElems (d : Dom) : Nat := (preorderList [d]).length

mutual
/-- Replace the first strict descendant (pre-order) of the forest matching
`p` by `f` of it; the flag reports whether a match was found. -/
def modifyFirst (p : Dom → Bool) (f : Dom → Dom) :
    List Dom → List Dom × Bool
  | [] => ([], false)
  | d :: ds =>
      if p d then (f d :: ds, true)
      else
        match modifyInto p f d with
        | (d', true) => (d' :: ds, true)
        | (_, false) =>
            match modifyFirst p f ds with
            | (ds', found) => (d :: ds', found)

/-- `modifyFirst` descending into one subtree's children. -/
def modifyInto (p : Dom → Bool) (f : Dom → Dom) : Dom → Dom × Bool
  | .el t a c s x ch =>
      match modifyFirst p f ch with
      | (ch', found) => (.el t a c s x ch', found)
end

mutual
/-- Insert `nw` as the next sibling of the first strict descendant
(pre-order) of the forest matching `p` (`insertAdjacentElement('afterend')`). -/
def insertAfterFirst (p : Dom → Bool) (nw : Dom) :
    List Dom → List Dom × Bool
  | [] => ([], false)
  | d :: ds =>
      if p d then (d :: nw :: ds, true)
      else
        match insertAfterInto p nw d with
        | (d', true) => (d' :: ds, true)
        | (_, false) =>
            match insertAfterFirst p nw ds with
            | (ds', found) => (d :: ds', found)

/-- `insertAfterFirst` descending into one subtree's children. -/
def insertAfterInto (p : Dom → Bool) (nw : Dom) : Dom → Dom × Bool
  | .el t a c s x ch =>
      match insertAfterFirst p nw ch with
      | (ch', found) => (.el t a c s x ch', found)
end

/-- Modifier: `n.appendChild(nw)`. -/
def appendChildF (nw : Dom) (n : Dom) : Dom :=
  .el n.tag n.attrs n.classes n.style n.text (n.children ++ [nw])

/-- Modifier: `n.insertAdjacentElement('afterbegin', nw)` (also
`n.insertBefore(nw, n.firstChild)`). -/
def prependChildF (nw : Dom) (n : Dom) : Dom :=
  .el n.tag n.attrs n.classes n.style n.text (nw :: n.children)

/-- Modifier: `n.innerHTML = ''` — drops all children and text. -/
def clearF (n : Dom) : Dom :=
  .el n.tag n.attrs n.classes n.style "" []

/-- Apply a first-match forest rewrite below a root element. -/
def Dom.rewriteBelow (d : Dom)
    (op : List Dom → List Dom × Bool) : Dom :=
  match d with
  | .el t a c s x ch => .el t a c s x (op ch).1

/-- `target.insertAdjacentElement('afterbegin', nw)` on the first strict
descendant matching `p`. -/
def prependIntoFirst (p : Dom → Bool) (nw : Dom) (root : Dom) : Dom :=
  root.rewriteBelow (modifyFirst p (prependChildF nw))

/-- `target.insertAdjacentElement('beforeend', nw)` / `appendChild(nw)` on
the first strict descendant matching `p`. -/
def appendIntoFirst (p : Dom → Bool) (nw : Dom) (root : Dom) : Dom :=
  root.rewriteBelow (modifyFirst p (appendChildF nw))

/-- `target.insertBefore(nw, target.firstChild)` on the first strict
descendant matching `p` (same effect as `afterbegin`). -/
def prependChildOfFirst (p : Dom → Bool) (nw : Dom) (root : Dom) : Dom :=
  prependIntoFirst p nw root

/-- `target.innerHTML = ''` on the first strict descendant matching `p`:
drops all children and text. -/
def clearFirst (p : Dom → Bool) (root : Dom) : Dom :=
  root.rewriteBelow (modifyFirst p clearF)

/-- `root.insertAdjacentElement('afterbegin', nw)` on the root itself. -/
def prependChildRoot (nw : Dom) (root : Dom) : Dom :=
  match root with
  | .el t a c s x ch => .el t a c s x (nw :: ch)

/-! ## String helpers for the identity resolver -/

/-- Does the character list contain the pattern as a contiguous sublist? -/
def containsSub (pat : List Char) : List Char → Bool
  | [] => pat.isEmpty
  | c :: t => pat.isPrefixOf (c :: t) || containsSub pat t

/-- CSS `[href*="pat"]` attribute substring test (case-sensitive). -/
def strContains (s pat : String) : Bool := containsSub pat.data s.data

/-- Case-insensitive (ASCII-folding) prefix test, for the `/i` flag. -/
def ciPrefix : List Char → List Char → Bool
  | [], _ => true
  | _ :: _, [] => false
  | p :: ps, c :: cs => (c.toLower == p) && ciPrefix ps cs

/-- `href.match(/\/entry\/([^/?#]+)/i)`: scan left to right for a
case-insensitive occurrence of `/entry/` followed by at least one
character other than `/`, `?`, `#`; capture that maximal run.  A position
where the run would be empty is not a match; the scan continues from the
next character, as a regex engine does. -/
def entryMatchAux : List Char → Option (List Char)
  | [] => none
  | c :: t =>
      if ciPrefix "/entry/".data (c :: t) then
        let seg := ((c :: t).drop 7).takeWhile
          (fun ch => !(ch == '/' || ch == '?' || ch == '#'))
        if seg.isEmpty then entryMatchAux t else some seg
      else entryMatchAux t

/-- The captured group of `href.match(/\/entry\/([^/?#]+)/i)`. -/
def entryMatch (href : String) : Option String :=
  (entryMatchAux href.data).map fun cs => String.mk cs

/-- Value of a hexadecimal digit (code points 0-9, a-f, A-F). -/
def hexVal (c : Char) : Option Nat :=
  let n := c.toNat
  if 48 ≤ n ∧ n ≤ 57 then some (n - 48)
  else if 97 ≤ n ∧ n ≤ 102 then some (n - 87)
  else if 65 ≤ n ∧ n ≤ 70 then some (n - 55)
  else none

/-- UTF-8 encoding of one scalar value, as byte values. -/
def utf8Encode (c : Char) : List Nat :=
  let v := c.toNat
  if v < 0x80 then [v]
  else if v < 0x800 then
    [0xC0 + v / 64, 0x80 + v % 64]
  else if v < 0x10000 then
    [0xE0 + v / 4096, 0x80 + v / 64 % 64, 0x80 + v % 64]
  else
    [0xF0 + v / 0x40000, 0x80 + v / 4096 % 64, 0x80 + v / 64 % 64,
      0x80 + v % 64]

/-- Is the byte a UTF-8 continuation byte? -/
def isCont (b : Nat) : Bool := 0x80 ≤ b && b < 0xC0

/-- Strict UTF-8 decoding (rejecting overlong forms, surrogates and
out-of-range values), as `decodeURIComponent` requires of the octets it
assembles; `none` models the thrown `URIError`. -/
def utf8Decode : List Nat → Option (List Char)
  | [] => some []
  | b :: rest =>
    if b < 0x80 then
      (utf8Decode rest).map (fun cs => Char.ofNat b :: cs)
    else if b < 0xC2 then none
    else if b < 0xE0 then
      match rest with
      | b1 :: rest' =>
          if isCont b1 then
            (utf8Decode rest').map
              (fun cs => Char.ofNat ((b - 0xC0) * 64 + (b1 - 0x80)) :: cs)
          else none
      | [] => none
    else if b < 0xF0 then
      match rest with
      | b1 :: b2 :: rest' =>
          if isCont b1 && isCont b2 then
            let v := (b - 0xE0) * 4096 + (b1 - 0x80) * 64 + (b2 - 0x80)
            if v < 0x800 || (0xD800 ≤ v && v ≤ 0xDFFF) then none
            else (utf8Decode rest').map (fun cs => Char.ofNat v :: cs)
          else none
      | _ => none
    else if b < 0xF5 then
      match rest with
      | b1 :: b2 :: b3 :: rest' =>
          if isCont b1 && isCont b2 && isCont b3 then
            let v := (b - 0xF0) * 0x40000 + (b1 - 0x80) * 4096 +
              (b2 - 0x80) * 64 + (b3 - 0x80)
            if v < 0x10000 || 0x10FFFF < v then none
            else (utf8Decode rest').map (fun cs => Char.ofNat v :: cs)
          else none
      | _ => none
    else none

/-- Percent-decoding pass of `decodeURIComponent`: every `%XY` hex escape
becomes the octet it denotes, every literal character contributes its
UTF-8 octets; `none` models the `URIError` thrown on a malformed escape.
(JS decodes each maximal escape run as UTF-8 by itself; since literal
characters always contribute complete UTF-8 sequences, decoding the whole
octet stream at once is equivalent.) -/
def percentDecodeBytes : List Char → Option (List Nat)
  | [] => some []
  | '%' :: a :: b :: rest => do
      let ha ← hexVal a
      let hb ← hexVal b
      let tail ← percentDecodeBytes rest
      pure ((16 * ha + hb) :: tail)
  | '%' :: _ => none
  | c :: rest => (percentDecodeBytes rest).map (fun bs => utf8Encode c ++ bs)

/-- `decodeURIComponent`; `none` models the thrown `URIError`. -/
def decodeURIComponent? (s : String) : Option String :=
  ((percentDecodeBytes s.data).bind utf8Decode).map fun cs => String.mk cs

/-- `elId.replace(/_main$/, '')`. -/
def stripMainSuffix (s : String) : String :=
  if s.endsWith "_main" then s.dropRight 5 else s

/-! ## Selectors used by the content script -/

/-- `[data-entry-id], [data-entryid]` (attribute presence). -/
def selHasEntryIdAttr (d : Dom) : Bool :=
  d.hasAttr "data-entry-id" || d.hasAttr "data-entryid"

/-- `a[href*="/entry/"]`. -/
def selEntryLink (d : Dom) : Bool :=
  d.tag == "a" &&
    (match d.getAttr "href" with
      | some h => strContains h "/entry/"
      | none => false)

/-- `SELECTORS.entry` (part_002 line 11). -/
def selEntry (d : Dom) : Bool :=
  selHasEntryIdAttr d ||
    (d.tag == "article" && d.hasClass "entry") ||
    d.hasAnyClass ["Entry", "entry--titleOnly", "entry--magazine",
      "entry--cards", "Article", "entry--overlay"] ||
    (d.tag == "article" && d.hasClass "Article")

def selContainer (d : Dom) : Bool := d.hasClass "ai-score-container"
def selBadge (d : Dom) : Bool := d.hasClass "ai-score-badge"
def selAnalyzeBtn (d : Dom) : Bool := d.hasClass "ai-analyze-btn"
def selSummaryBtn (d : Dom) : Bool := d.hasClass "ai-summary-btn"
def selReasonText (d : Dom) : Bool := d.hasClass "ai-reason-text"
def selSummaryHeader (d : Dom) : Bool := d.hasClass "ai-summary-header"
def selRelatedSection (d : Dom) : Bool :=
  d.hasClass "ai-related-articles-section"
def selRelatedResults (d : Dom) : Bool :=
  d.hasClass "ai-related-articles-results"

/-- `.EntryTitleLink, .entry-title-link, .entry__title, .ArticleTitle`. -/
def selTitleLink (d : Dom) : Bool :=
  d.hasAnyClass ["EntryTitleLink", "entry-title-link", "entry__title",
    "ArticleTitle"]

/-- `.EntryTitle, .entry-title, .title, .ArticleTitle`. -/
def selTitleContainer (d : Dom) : Bool :=
  d.hasAnyClass ["EntryTitle", "entry-title", "title", "ArticleTitle"]

/-- `.EntryInfo, .entry-info, .EntryMetadataWrapper`. -/
def selEntryInfo (d : Dom) : Bool :=
  d.hasAnyClass ["EntryInfo", "entry-info", "EntryMetadataWrapper"]

/-- `.Metadata, .entry__metadata`. -/
def selMetadata (d : Dom) : Bool :=
  d.hasAnyClass ["Metadata", "entry__metadata"]

/-- `.EntrySummary, .entry__summary, .content, .entryContent`. -/
def selScanSummary (d : Dom) : Bool :=
  d.hasAnyClass ["EntrySummary", "entry__summary", "content", "entryContent"]

/-- `.EntryBody, .entryBody, .ArticleBody, .entry__content`
(renderItem's expanded-view content body, part_002 lines 365/521). -/
def selContentBody (d : Dom) : Bool :=
  d.hasAnyClass ["EntryBody", "entryBody", "ArticleBody", "entry__content"]

/-! ## The identity resolver: `getEntryId` (part_002 lines 84–110)

`Except.error ()` models the `URIError` that `decodeURIComponent` throws
on a malformed percent escape and that `getEntryId` lets escape; the
normal result is JS `string | null`, i.e. `Option String`. -/

/-- Probes (d) and (e): the generic `data-id` attribute, then the node's
own `id` with a trailing `_main` stripped, else `null`. -/
def getEntryIdTail (el : Dom) : Option String :=
  let idAttr := el.getAttr "data-id"
  if truthyS idAttr then idAttr
  else
    let elId := el.getAttr "id"
    if truthyS elId then some (stripMainSuffix (elId.getD ""))
    else none

/-- `getEntryId` (part_002 lines 84–110). -/
def getEntryId (el : Dom) : Except Unit (Option String) :=
  let datasetId := jsOrS (el.getAttr "data-entry-id")
    (el.getAttr "data-entryid")
  if truthyS datasetId then .ok datasetId
  else
    let childStep : Option (Option String) :=
      match el.qsel selHasEntryIdAttr with
      | some child =>
          let childId := jsOrS (child.getAttr "data-entry-id")
            (child.getAttr "data-entryid")
          if truthyS childId then some childId else none
      | none => none
    match childStep with
    | some cid => .ok cid
    | none =>
        match el.qsel selEntryLink with
        | some link =>
            match entryMatch ((link.getAttr "href").getD "") with
            | some seg =>
                match decodeURIComponent? seg with
                | some dec => .ok (some dec)
                | none => .error ()
            | none => .ok (getEntryIdTail el)
        | none => .ok (getEntryIdTail el)

/-! ## Verdicts

The response shape `{ id, score: number|null, data: { verdict, summary,
reason }, updated_at, found }`.  Scores are modelled as exact rationals;
`updated_at` is not read by the content script and is omitted. -/

/-- The `data` member of a verdict. -/
structure ItemData where
  verdict : Option String
  summary : Option String
  reason : Option String
deriving Repr, DecidableEq

/-- One verdict (`items[id]` of a `get_scores` response, also the values
of `STATE.itemCache`). -/
structure Item where
  id : String
  found : Bool
  score : Option Rat
  data : Option ItemData
deriving Repr, DecidableEq

/-- JS `a || dflt` where `a` is a nullable string and `dflt` a literal. -/
def jsDefault (a : Option String) (dflt : String) : String :=
  if truthyS a then a.getD "" else dflt

/-- JS `a || b` on nullable objects (every object is truthy). -/
def jsOrD {A : Type} (a b : Option A) : Option A :=
  match a with
  | some x => some x
  | none => b

/-- JS `score >= x` where `score : number|null`: `null` coerces to `0`. -/
def jsGeNull (score : Option Rat) (x : Rat) : Bool :=
  match score with
  | some q => x ≤ q
  | none => x ≤ 0

/-- `Number.prototype.toFixed(1)` on an exact nonnegative rational:
round to the nearest tenth, ties toward the larger value. -/
def toFixed1Nat (q : Rat) : String :=
  let n := (10 * q + 1 / 2).floor.toNat
  toString (n / 10) ++ "." ++ toString (n % 10)

/-- `score.toFixed(1)`; JS formats a negative value by negating first. -/
def toFixed1 (q : Rat) : String :=
  if q < 0 then "-" ++ toFixed1Nat (-q) else toFixed1Nat q

/-- `badge.textContent = score?.toFixed(1)`: with a `null` score the
optional chain yields `undefined`; `Node.textContent` is a *nullable*
`DOMString?`, so WebIDL converts `undefined` to `null`, and the
`textContent` setter treats `null` as the empty string. -/
def badgeText (score : Option Rat) : String :=
  match score with
  | some q => toFixed1 q
  | none => ""

/-- The badge background tier (part_002 lines 307–313): `score >= 4.0`
high, else `score >= 3.0` mid, else low. -/
def tierColor (score : Option Rat) : String :=
  if jsGeNull score 4 then "#10b981"
  else if jsGeNull score 3 then "#3b82f6"
  else "#ef4444"

/-! ## The render reconciler: `ensureBadgeContainer` and `renderItem`
(part_002 lines 112–163 and 219–715)

Only claim-relevant inline styles (the badge background) are modelled;
purely presentational styles are dropped.  `marked.parse` output inside
the summary header is modelled as the raw summary text. -/

def mkSpinner : Dom := .el "span" [] ["spinner"] [] "" []

/-- `btn.innerHTML = '<span class="spinner"></span>Analyze AI'`. -/
def mkAnalyzeBtn : Dom :=
  .el "button" [] ["ai-analyze-btn"] [] "Analyze AI" [mkSpinner]

/-- `summaryBtn.innerHTML = '<span class="spinner"></span>Summary'`. -/
def mkSummaryBtn : Dom :=
  .el "button" [] ["ai-summary-btn"] [] "Summary" [mkSpinner]

/-- The freshly created annotation container span. -/
def newContainer : Dom :=
  .el "span" [] ["ai-score-container"] [("display", "inline-flex")] "" []

/-- The score badge span (part_002 lines 303–318). -/
def mkBadge (score : Option Rat) : Dom :=
  .el "span" [] ["ai-score-badge"]
    [("background", tierColor score), ("cursor", "pointer")]
    (badgeText score) []

/-- The inline rationale element (part_002 lines 348–356). -/
def mkReasonEl (reason : String) : Dom :=
  .el "span" [] ["ai-reason-text"] [] reason []

/-- The summary header injected at the top of the content body
(part_002 lines 371–395). -/
def mkSummaryHeader (summaryContent : String) : Dom :=
  .el "div" [] ["ai-summary-header"] [] ""
    [.el "strong" [] [] [] "AI 总结: " [],
      .el "div" [] [] [] summaryContent []]

/-- The related-articles loading indicator (part_002 lines 528–556). -/
def mkLoadingDiv : Dom :=
  .el "div" [] ["ai-related-articles-loading"] [] ""
    [.el "h3" [] [] [] "Related Articles" [],
      .el "div" [] [] [] "Finding related articles..." []]

/-- `ensureBadgeContainer` (part_002 lines 112–163): find the existing
container, or create one and insert it by the prioritized per-view-mode
fallback chain (title-only: metadata row, else after the title link;
then: article info row, title container, node-prepend). -/
def ensureBadgeContainer (el : Dom) : Dom :=
  if el.qselB selContainer then el
  else if el.hasClass "entry--titleOnly" && el.qselB selMetadata then
    prependIntoFirst selMetadata newContainer el
  else if el.hasClass "entry--titleOnly" && el.qselB selTitleLink then
    el.rewriteBelow (insertAfterFirst selTitleLink newContainer)
  else if el.qselB selEntryInfo then
    appendIntoFirst selEntryInfo newContainer el
  else if el.qselB selTitleContainer then
    prependIntoFirst selTitleContainer newContainer el
  else
    prependChildRoot newContainer el

/-- `container.querySelector(q)`: look inside the engine container. -/
def containerHas (root : Dom) (q : Dom → Bool) : Bool :=
  match root.qsel selContainer with
  | some c => c.qselB q
  | none => false

/-- The inline-rationale block (part_002 lines 345–357): in the expanded
or detail view, with a truthy reason and no rationale element in the
container yet, append one. -/
def stageReason (el1 : Dom) (hasInfo isExpanded : Bool)
    (rawReason : Option String) : Dom :=
  if (hasInfo || isExpanded) && truthyS rawReason &&
      !containerHas el1 selReasonText then
    appendIntoFirst selContainer (mkReasonEl (rawReason.getD "")) el1
  else el1

/-- The summary-header block (part_002 lines 363–397): in the expanded
or detail view, with a content body, a real summary and no header yet,
insert the header before the body's first child. -/
def stageHeader (el2 : Dom) (hasInfo isExpanded : Bool)
    (summaryContent : String) : Dom :=
  if hasInfo || isExpanded then
    match el2.qsel selContentBody with
    | some cb =>
        if summaryContent ≠ "" && summaryContent ≠ "无详细总结" &&
            !cb.qselB selSummaryHeader then
          prependChildOfFirst selContentBody (mkSummaryHeader summaryContent)
            el2
        else el2
    | none => el2
  else el2

/-- The summary-button block (part_002 lines 400–517): append the button
when the container does not hold one. -/
def stageBtn (el3 : Dom) : Dom :=
  if !containerHas el3 selSummaryBtn then
    appendIntoFirst selContainer mkSummaryBtn el3
  else el3

/-- The related-articles block, synchronous part (part_002 lines
519–711): in the expanded or detail view, with a content body holding
neither the results nor the section marker, append the loading indicator
and call `getEntryId` (whose `URIError`, when the permalink probe hits a
malformed escape, escapes `renderItem` — the second component). -/
def stageRelated (el4 : Dom) (hasInfo isExpanded : Bool) : Dom × Bool :=
  if hasInfo || isExpanded then
    match el4.qsel selContentBody with
    | some cb =>
        if !cb.qselB selRelatedSection && !cb.qselB selRelatedResults then
          let el5 := appendIntoFirst selContentBody mkLoadingDiv el4
          (el5, !(getEntryId el5).isOk)
        else (el4, false)
    | none => (el4, false)
  else (el4, false)

/-- The found-verdict arm of `renderItem` (part_002 lines 292–715),
applied to the tree whose container has just been cleared: badge, then
the rationale, summary-header, summary-button and related-articles
blocks, with the expanded/detail test made once, as in the source. -/
def renderFound (el0 : Dom) (it : Item) : Dom × Bool :=
  let summaryContent := jsDefault (it.data.bind ItemData.summary) "无详细总结"
  let rawReason := it.data.bind ItemData.reason
  let el1 := appendIntoFirst selContainer (mkBadge it.score) el0
  let hasInfo := el1.qselB selEntryInfo
  let isExpanded := el1.hasClass "entry--selected" ||
    el1.hasClass "entry--expanded"
  let el2 := stageReason el1 hasInfo isExpanded rawReason
  let el3 := stageHeader el2 hasInfo isExpanded summaryContent
  let el4 := stageBtn el3
  stageRelated el4 hasInfo isExpanded

/-- `renderItem` (part_002 lines 219–715): ensure and clear the
container, then either the manual-trigger control (absent / not-found
verdict) or the badge pipeline.  The second component reports a thrown
exception (see `renderFound`). -/
def renderItemCore (el : Dom) (item : Option Item) : Dom × Bool :=
  let el1 := ensureBadgeContainer el
  let el2 := clearFirst selContainer el1
  match item with
  | some it =>
      if it.found then renderFound el2 it
      else (appendIntoFirst selContainer mkAnalyzeBtn el2, false)
  | none => (appendIntoFirst selContainer mkAnalyzeBtn el2, false)

/-- The tree produced by `renderItem`. -/
def renderItem (el : Dom) (item : Option Item) : Dom :=
  (renderItemCore el item).1

/-- Does `renderItem` throw? -/
def renderItemThrows (el : Dom) (item : Option Item) : Bool :=
  (renderItemCore el item).2

/-! ## The scan scheduler and fetch coordinator
(part_002 lines 717–797 and 821–915)

The content-script state `STATE` is `pending : Map identity → node` and
`itemCache : Map identity → verdict` (`STATE.processed` is write-only and
documented as deprecated; it is omitted).  The document is modelled as
the snapshot list of candidate entry nodes a scan enumerates
(`Array.from(document.querySelectorAll(SELECTORS.entry))`); render calls
made while scanning or completing are recorded as actions rather than
re-threaded into the snapshot (host-driven document changes are modelled
by an arbitrary replacement step, which subsumes them).

`getEntryId` can throw (`URIError`); inside `scanEntries` and
`fastProcessMutations` such an exception aborts the loop after the
mutations already performed, and no `get_scores` message is sent —
modelled by the `aborted` flag. -/

/-- One member of the `itemsToFetch` batch (part_002 lines 760–765). -/
structure FetchItem where
  id : String
  title : String
  url : Option String
  summary : String
deriving Repr, DecidableEq

/-- Metadata extraction for a candidate entry (part_002 lines 753–765):
title from the title link (else `'Unknown Title'`), relative permalinks
prefixed with `window.location.origin`, excerpt from the summary node. -/
def extractFetchItem (origin id : String) (entry : Dom) : FetchItem :=
  let titleEl := entry.qsel selTitleLink
  let summaryEl := entry.qsel selScanSummary
  let link : Option String := titleEl.bind (fun t => t.getAttr "href")
  { id := id
    title := match titleEl with
      | some t => t.textContent.trim
      | none => "Unknown Title"
    url :=
      if truthyS link then
        let l := link.getD ""
        some (if l.startsWith "http" then l else origin ++ l)
      else none
    summary := match summaryEl with
      | some s => s.textContent.trim
      | none => "" }

/-- The content-script global state (`STATE`, part_002 lines 3–8). -/
structure CState where
  pending : List (String × Dom)
  itemCache : List (String × Item)

/-- Outcome of one `scanEntries` / `fastProcessMutations` enumeration:
the updated state, the `itemsToFetch` batch with its `map` of captured
nodes, the re-render calls made along the way, and whether an uncaught
`getEntryId` exception aborted the loop before any message was sent. -/
structure ScanResult where
  state : CState
  items : List FetchItem
  fmap : List (String × Dom)
  renders : List (Dom × Item)
  aborted : Bool

/-- The `scanEntries` loop body over the entry snapshot (part_002 lines
730–769): skip unresolvable ids, skip pending ids, re-render from the
local cache when an already-badged entry is now expanded but lacks its
reason text, and otherwise mark pending and add to the batch. -/
def scanFold (origin : String) : List Dom → ScanResult → ScanResult
  | [], acc => acc
  | e :: rest, acc =>
    match getEntryId e with
    | .error _ => { acc with aborted := true }
    | .ok idOpt =>
      if !truthyS idOpt then scanFold origin rest acc
      else
        let id := idOpt.getD ""
        if mapHas acc.state.pending id then scanFold origin rest acc
        else if e.qselB selBadge || e.qselB selAnalyzeBtn then
          let acc' :=
            match mapGet acc.state.itemCache id with
            | some item =>
                if item.found && truthyS (item.data.bind ItemData.reason) &&
                    (e.qselB selEntryInfo && !e.qselB selReasonText) then
                  { acc with renders := acc.renders ++ [(e, item)] }
                else acc
            | none => acc
          scanFold origin rest acc'
        else
          scanFold origin rest
            { acc with
              state := { acc.state with
                pending := mapSet acc.state.pending id e }
              items := acc.items ++ [extractFetchItem origin id e]
              fmap := mapSet acc.fmap id e }

/-- `scanEntries` up to its `sendMessage` (part_002 lines 723–776). -/
def scanEntriesRun (origin : String) (entries : List Dom) (st : CState) :
    ScanResult :=
  scanFold origin entries ⟨st, [], [], [], false⟩

/-- `fastProcessEntry` (part_002 lines 821–857) folded over the candidate
nodes that `fastProcessMutations` derives from one mutation batch: skip
already-rendered nodes, render immediately from the local cache, skip
pending ids, otherwise mark pending and batch. -/
def fastFold (origin : String) : List Dom → ScanResult → ScanResult
  | [], acc => acc
  | e :: rest, acc =>
    if e.qselB selBadge || e.qselB selAnalyzeBtn then fastFold origin rest acc
    else
      match getEntryId e with
      | .error _ => { acc with aborted := true }
      | .ok idOpt =>
        if !truthyS idOpt then fastFold origin rest acc
        else
          let id := idOpt.getD ""
          match mapGet acc.state.itemCache id with
          | some cached =>
              fastFold origin rest
                { acc with renders := acc.renders ++ [(e, cached)] }
          | none =>
            if mapHas acc.state.pending id then fastFold origin rest acc
            else
              fastFold origin rest
                { acc with
                  state := { acc.state with
                    pending := mapSet acc.state.pending id e }
                  items := acc.items ++ [extractFetchItem origin id e]
                  fmap := mapSet acc.fmap id e }

/-- `fastProcessMutations` up to its `sendMessage` (part_002 lines
859–892), on the candidate nodes derived from the mutation records. -/
def fastRun (origin : String) (cands : List Dom) (st : CState) : ScanResult :=
  fastFold origin cands ⟨st, [], [], [], false⟩

/-- A `get_scores` response (`{ items: { [id]: Verdict } }`); `none`
models a missing/void member. -/
structure ScoresResp where
  items : Option (List (String × Item))

/-- `resp?.items || {}` (part_002 line 783). -/
def respItemsOf : Option ScoresResp → List (String × Item)
  | some r => r.items.getD []
  | none => []

/-- The `get_scores` success-callback loop (part_002 lines 783–795): for
each batched item, look the node up in the request's `map`, falling back
to the pending map (both hold the node captured at request time), store a
present verdict in the local cache, render against that node, and release
the id from the pending map.  Returns the final state and the render
calls `(node, items[id])` in order. -/
def handleScores (fmap : List (String × Dom)) (resp : Option ScoresResp) :
    List FetchItem → CState → CState × List (Dom × Option Item)
  | [], st => (st, [])
  | fi :: rest, st =>
      let entry := jsOrD (mapGet fmap fi.id) (mapGet st.pending fi.id)
      let st1 :=
        match mapGet (respItemsOf resp) fi.id with
        | some item =>
            { st with itemCache := mapSet st.itemCache fi.id item }
        | none => st
      let st2 := { st1 with pending := mapDelete st1.pending fi.id }
      let next := handleScores fmap resp rest st2
      (next.1,
        (match entry with
          | some e => [(e, mapGet (respItemsOf resp) fi.id)]
          | none => []) ++ next.2)

/-- The `get_scores` failure callback (part_002 lines 777–781): on
`chrome.runtime.lastError`, release every batched id from the pending map;
nothing is cached and nothing is rendered. -/
def releaseBatch : List FetchItem → List (String × Dom) → List (String × Dom)
  | [], p => p
  | fi :: rest, p => releaseBatch rest (mapDelete p fi.id)

/-- The failure handler's effect on the whole state. -/
def handleScoresFailure (batch : List FetchItem) (st : CState) : CState :=
  { st with pending := releaseBatch batch st.pending }

/-- The "current live node" for an identity: the first entry of the
current document snapshot that resolves to it.  (The specification's
completion-time lookup; the source never performs it.) -/
def liveNodeFor (entries : List Dom) (id : String) : Option Dom :=
  entries.find? (fun e =>
    match getEntryId e with
    | .ok (some i) => i == id
    | _ => false)

/-- The completion handler as the specification words it (not as the
source implements it): each verdict is handed to the reconciler against
the *current live node* for the identity, looked up in the document again
at completion time; an identity whose node is gone silently no-ops.  Kept
separate for comparison with `handleScores`, which uses the captured
node. -/
def handleScoresSpecLive (entries : List Dom) (resp : Option ScoresResp) :
    List FetchItem → CState → CState × List (Dom × Option Item)
  | [], st => (st, [])
  | fi :: rest, st =>
      let entry := liveNodeFor entries fi.id
      let st1 :=
        match mapGet (respItemsOf resp) fi.id with
        | some item =>
            { st with itemCache := mapSet st.itemCache fi.id item }
        | none => st
      let st2 := { st1 with pending := mapDelete st1.pending fi.id }
      let next := handleScoresSpecLive entries resp rest st2
      (next.1,
        (match entry with
          | some e => [(e, mapGet (respItemsOf resp) fi.id)]
          | none => []) ++ next.2)

/-! ## The whole engine as a transition system

State: the content-script globals, the set of issued-but-unresolved
`get_scores` batches (each with its captured-node map), and the current
document snapshot.  Steps: arbitrary host document changes, a full scan,
a fast-path mutation pass, and resolution of any outstanding batch by a
response or by a channel failure. -/

/-- Engine Γ: content-script state, in-flight batches, document. -/
structure Sys where
  cs : CState
  inflight : List (List FetchItem × List (String × Dom))
  entries : List Dom

/-- Pending-map keys. -/
def pendingKeys (s : Sys) : List String := s.cs.pending.map (·.1)

/-- Identities with an issued, unresolved request (over all batches). -/
def inflightIds (s : Sys) : List String :=
  (s.inflight.map (fun b => b.1.map (·.id))).flatten

/-- One engine step. -/
inductive Step (origin : String) : Sys → Sys → Prop where
  /-- The host replaces / mutates the document arbitrarily. -/
  | host (s : Sys) (newEntries : List Dom) :
      Step origin s { s with entries := newEntries }
  /-- A scheduled `scanEntries` pass runs on the current snapshot; a
  non-empty batch built without an aborting exception is sent. -/
  | scan (s : Sys) :
      Step origin s
        { cs := (scanEntriesRun origin s.entries s.cs).state
          inflight :=
            if (scanEntriesRun origin s.entries s.cs).items ≠ [] ∧
                (scanEntriesRun origin s.entries s.cs).aborted = false then
              s.inflight ++ [((scanEntriesRun origin s.entries s.cs).items,
                (scanEntriesRun origin s.entries s.cs).fmap)]
            else s.inflight
          entries := s.entries }
  /-- A `fastProcessMutations` pass over candidate nodes from a mutation
  batch. -/
  | fast (s : Sys) (cands : List Dom) :
      Step origin s
        { cs := (fastRun origin cands s.cs).state
          inflight :=
            if (fastRun origin cands s.cs).items ≠ [] ∧
                (fastRun origin cands s.cs).aborted = false then
              s.inflight ++ [((fastRun origin cands s.cs).items,
                (fastRun origin cands s.cs).fmap)]
            else s.inflight
          entries := s.entries }
  /-- Some outstanding batch resolves with a response. -/
  | respond (s : Sys) (pre post : List (List FetchItem × List (String × Dom)))
      (b : List FetchItem × List (String × Dom)) (resp : Option ScoresResp)
      (h : s.inflight = pre ++ b :: post) :
      Step origin s
        { cs := (handleScores b.2 resp b.1 s.cs).1
          inflight := pre ++ post
          entries := s.entries }
  /-- Some outstanding batch resolves with a channel failure. -/
  | fail (s : Sys) (pre post : List (List FetchItem × List (String × Dom)))
      (b : List FetchItem × List (String × Dom))
      (h : s.inflight = pre ++ b :: post) :
      Step origin s
        { cs := handleScoresFailure b.1 s.cs
          inflight := pre ++ post
          entries := s.entries }

/-- The engine as loaded: empty pending map, empty cache, no requests in
flight, whatever document the host currently shows. -/
def initSys (entries0 : List Dom) : Sys := ⟨⟨[], []⟩, [], entries0⟩

/-- Reachability from the initial state. -/
def Reach (origin : String) (entries0 : List Dom) (s : Sys) : Prop :=
  Relation.ReflTransGen (Step origin) (initSys entries0) s

/-- **C1's invariant**: the pending map binds each identity at most once,
an identity is in at most one in-flight request, and every in-flight
identity is held in the pending map (so scans skip it). -/
def SysInv (s : Sys) : Prop :=
  (pendingKeys s).Nodup ∧ (inflightIds s).Nodup ∧
    ∀ id ∈ inflightIds s, id ∈ pendingKeys s

/-! ## Content script: debounced scan scheduling (part_002 lines 717–806)

`debouncedScan` starts a 200 ms timer only when none is armed; the timer
callback clears the flag and calls `scheduleScan`; `scheduleScan` queues
one `scanEntries` through `requestAnimationFrame` guarded by
`STATE.scheduled`.  The model abstracts real time away: a burst of
notifications "within the debounce window" is a sequence of
`debouncedScan` calls all delivered before the timer callback runs. -/

/-- The fixed debounce delay passed to `setTimeout` (part_002 line 805). -/
def DEBOUNCE_MS : Nat := 200

/-- Scheduler state: `debounceTimer` (is a timer armed), `STATE.scheduled`
(is a scan queued on the next animation frame), and a count of executed
scan passes (for stating coalescing). -/
structure SchedState where
  debounceTimer : Bool
  scheduled : Bool
  scans : Nat
deriving Repr, DecidableEq

/-- `debouncedScan()` (part_002 lines 800–806): a call while a timer is
armed is dropped; otherwise it arms the timer. -/
def debouncedScan (s : SchedState) : SchedState :=
  if s.debounceTimer then s else { s with debounceTimer := true }

/-- `scheduleScan()` (part_002 lines 717–721). -/
def scheduleScan (s : SchedState) : SchedState :=
  if s.scheduled then s else { s with scheduled := true }

/-- The armed timer fires: `debounceTimer = null; scheduleScan();`.
When no timer is armed nothing can fire, so the state is unchanged. -/
def timerFire (s : SchedState) : SchedState :=
  if s.debounceTimer then
    scheduleScan { s with debounceTimer := false }
  else s

/-- The queued animation frame runs `scanEntries`, which first clears
`STATE.scheduled` (part_002 line 724); one scan pass executes.  With no
frame queued nothing runs. -/
def rafFire (s : SchedState) : SchedState :=
  if s.scheduled then { s with scheduled := false, scans := s.scans + 1 }
  else s

/-- Iterated notification burst: `n` mutation notifications, none handled
by the fast path, each invoking `debouncedScan`. -/
def burst : Nat → SchedState → SchedState
  | 0, s => s
  | n + 1, s => debouncedScan (burst n s)

/-- The idle scheduler. -/
def idleSched : SchedState := ⟨false, false, 0⟩

/-! ## Content script: tooltip placement (part_002 lines 191–217) -/

/-- Inputs read by `updateTooltipPos`: pointer position (`e.clientX/Y`),
the tooltip's bounding box (`rect.width/height`), and the viewport
(`window.innerWidth/innerHeight`). -/
structure TooltipEnv where
  clientX : Rat
  clientY : Rat
  width : Rat
  height : Rat
  winWidth : Rat
  winHeight : Rat

/-- `updateTooltipPos` (part_002 lines 191–217): default position is the
pointer plus a 10 px offset; when that would overflow the right (resp.
bottom) viewport edge, flip to the opposite side of the pointer by the
tooltip's own width (resp. height) plus the offset.  Returns the assigned
`(left, top)`. -/
def updateTooltipPos (e : TooltipEnv) : Rat × Rat :=
  let x := e.clientX + 10
  let y := e.clientY + 10
  let finalX := if x + e.width > e.winWidth then x - e.width - 20 else x
  let finalY := if y + e.height > e.winHeight then y - e.height - 20 else y
  (finalX, finalY)

/-! ## A family of well-formed entry nodes

`mkEntry` builds the entry shapes the host renders (the view-modes of the
design document): optional metadata row, title link, info row and content
body, with the title-only and expanded markers as flags and all string
content arbitrary.  It is a test-input generator for the theorems; the
engine definitions above are independent of it. -/

/-- Parameters of a generated entry node. -/
structure EntryParams where
  titleOnly : Bool
  expanded : Bool
  hasMeta : Bool
  hasTitleLink : Bool
  hasInfo : Bool
  hasBody : Bool
  eid : String
  href : String
  title : String
  body : String

/-- A generated entry node. -/
def mkEntry (p : EntryParams) : Dom :=
  .el "article" [("data-entry-id", p.eid)]
    (["Entry"] ++ (if p.titleOnly then ["entry--titleOnly"] else []) ++
      (if p.expanded then ["entry--selected"] else []))
    [] ""
    ((if p.hasMeta then [.el "div" [] ["Metadata"] [] "" []] else []) ++
      (if p.hasTitleLink then
        [.el "a" [("href", p.href)] ["EntryTitleLink"] [] p.title []]
       else []) ++
      (if p.hasInfo then [.el "div" [] ["EntryInfo"] [] "" []] else []) ++
      (if p.hasBody then [.el "div" [] ["EntryBody"] [] p.body []] else []))

/-! ## Concrete scenario inputs -/

/-- A minimal resolvable, badge-free entry with the given identity. -/
def plainEntry (id : String) : Dom :=
  .el "article" [("data-entry-id", id)] ["Entry"] [] "" []

/-- An entry rendered in the expanded/detail view (info row and content
body present). -/
def expandedEntry (id : String) : Dom :=
  .el "article" [("data-entry-id", id)] ["Entry"] [] ""
    [.el "div" [] ["EntryInfo"] [] "" [],
      .el "div" [] ["EntryBody"] [] "body text" []]

/-- A found verdict with score 4.6. -/
def verdict46 : Item :=
  ⟨"a1", true, some (23 / 5 : Rat),
    some ⟨some "值得阅读", some "a summary", some "a reason"⟩⟩

/-- Fetching the key just `mapSet` stored returns the stored value. -/
theorem mapGet_mapSet_self {A : Type} (m : List (String × A)) (k : String)
    (v : A) : mapGet (mapSet m k v) k = some v := by
  induction m with
  | nil => simp [mapSet, mapGet, List.find?]
  | cons p rest ih =>
      by_cases h : p.1 == k
      · simp [mapSet, h, mapGet, List.find?]
      · simpa [mapSet, h, mapGet, List.find?] using ih

/-! ## Forest lemmas for the first-match DOM mutations -/

theorem preorderList_nil : preorderList [] = [] := rfl

/-- The one-step equation of `preorderList` in rose-tree form. -/
theorem preorderList_cons (t : String) (a : List (String × String))
    (c : List String) (s : List (String × String)) (x : String)
    (ch ds : List Dom) :
    preorderList (.el t a c s x ch :: ds)
      = .el t a c s x ch :: (preorderList ch ++ preorderList ds) := by
  simp [preorderList, preorderOne, preorderOne]

theorem modifyFirst_nil (p : Dom → Bool) (f : Dom → Dom) :
    modifyFirst p f [] = ([], false) := rfl

/-- The one-step equation of `modifyFirst` in rose-tree form. -/
theorem modifyFirst_cons (p : Dom → Bool) (f : Dom → Dom) (t : String)
    (a : List (String × String)) (c : List String)
    (s : List (String × String)) (x : String) (ch ds : List Dom) :
    modifyFirst p f (.el t a c s x ch :: ds)
      = if p (.el t a c s x ch) then (f (.el t a c s x ch) :: ds, true)
        else
          match modifyFirst p f ch with
          | (ch', true) => (.el t a c s x ch' :: ds, true)
          | (_, false) =>
              match modifyFirst p f ds with
              | (ds', found) => (.el t a c s x ch :: ds', found) := by
  cases hp : p (.el t a c s x ch) with
  | true => simp [modifyFirst, modifyInto, hp]
  | false =>
    rcases hm : modifyFirst p f ch with ⟨ch', fl⟩
    cases fl <;> simp [modifyFirst, modifyInto, hp, hm]

theorem insertAfterFirst_nil (p : Dom → Bool) (nw : Dom) :
    insertAfterFirst p nw [] = ([], false) := rfl

/-- The one-step equation of `insertAfterFirst` in rose-tree form. -/
theorem insertAfterFirst_cons (p : Dom → Bool) (nw : Dom) (t : String)
    (a : List (String × String)) (c : List String)
    (s : List (String × String)) (x : String) (ch ds : List Dom) :
    insertAfterFirst p nw (.el t a c s x ch :: ds)
      = if p (.el t a c s x ch) then (.el t a c s x ch :: nw :: ds, true)
        else
          match insertAfterFirst p nw ch with
          | (ch', true) => (.el t a c s x ch' :: ds, true)
          | (_, false) =>
              match insertAfterFirst p nw ds with
              | (ds', found) => (.el t a c s x ch :: ds', found) := by
  cases hp : p (.el t a c s x ch) with
  | true => simp [insertAfterFirst, insertAfterInto, hp]
  | false =>
    rcases hm : insertAfterFirst p nw ch with ⟨ch', fl⟩
    cases fl <;> simp [insertAfterFirst, insertAfterInto, hp, hm]

/-- Pre-order of a `cons` forest splits at the head subtree. -/
theorem preorderList_cons_eq (d : Dom) (ds : List Dom) :
    preorderList (d :: ds) = preorderList [d] ++ preorderList ds := by
  cases d with
  | el t a c s x ch => simp [preorderList, preorderOne]

/-- A tree is a member of its own pre-order listing. -/
theorem self_mem_preorderList (d : Dom) : d ∈ preorderList [d] := by
  cases d with
  | el t a c s x ch => simp [preorderList, preorderOne]

/-- The found flag of `modifyFirst` is the pre-order search result. -/
theorem modifyFirst_snd (p : Dom → Bool) (f : Dom → Dom) :
    ∀ ds : List Dom, (modifyFirst p f ds).2 = (preorderList ds).any p
  | [] => by simp [modifyFirst, preorderList, preorderOne]
  | .el t a c s x ch :: ds => by
      have ih1 := modifyFirst_snd p f ch
      have ih2 := modifyFirst_snd p f ds
      cases hp : p (.el t a c s x ch) with
      | true => simp [modifyFirst, modifyInto, hp, preorderList, preorderOne]
      | false =>
        rcases hm : modifyFirst p f ch with ⟨ch', fl⟩
        cases fl with
        | true =>
            have hch : (preorderList ch).any p = true := by rw [← ih1, hm]
            simp [modifyFirst, modifyInto, hp, hm, preorderList, preorderOne, List.any_append, hch]
        | false =>
            have hch : (preorderList ch).any p = false := by rw [← ih1, hm]
            simp [modifyFirst, modifyInto, hp, hm, preorderList, preorderOne, List.any_append, hch, ih2]

/-- If the target is found, a node that `f` guarantees inside the
modified subtree is in the result. -/
theorem mem_insert_modifyFirst (p : Dom → Bool) (f : Dom → Dom) (nw : Dom)
    (hf : ∀ n, p n = true → nw ∈ preorderList [f n]) :
    ∀ ds : List Dom, (preorderList ds).any p = true →
      nw ∈ preorderList (modifyFirst p f ds).1
  | [], h => by simp [preorderList, preorderOne] at h
  | .el t a c s x ch :: ds, h => by
      cases hp : p (.el t a c s x ch) with
      | true =>
        simp only [modifyFirst, modifyInto, hp, if_true]
        rw [preorderList_cons_eq]
        exact List.mem_append_left _ (hf _ hp)
      | false =>
        have hsplit : (preorderList ch).any p = true ∨
            (preorderList ds).any p = true := by
          rcases (by simpa [preorderList, preorderOne, List.any_append] using h : _) with
            h1 | h2 | h3
          · exact absurd h1 (by simp [hp])
          · exact Or.inl (List.any_eq_true.mpr h2)
          · exact Or.inr (List.any_eq_true.mpr h3)
        rcases hm : modifyFirst p f ch with ⟨ch', fl⟩
        have hfl : fl = (preorderList ch).any p := by
          rw [← modifyFirst_snd p f ch, hm]
        cases fl with
        | true =>
            have : nw ∈ preorderList ch' := by
              have := mem_insert_modifyFirst p f nw hf ch hfl.symm
              rwa [hm] at this
            simp [modifyFirst, modifyInto, hp, hm, preorderList, preorderOne, List.mem_append, this]
        | false =>
            have hds : (preorderList ds).any p = true := by
              rcases hsplit with h2 | h3
              · exact absurd h2 (by simp [← hfl])
              · exact h3
            rcases hd : modifyFirst p f ds with ⟨ds', fl2⟩
            have : nw ∈ preorderList ds' := by
              have := mem_insert_modifyFirst p f nw hf ds hds
              rwa [hd] at this
            simp [modifyFirst, modifyInto, hp, hm, hd, preorderList, preorderOne, List.mem_append, this]

/-- A node whose whole subtree avoids the target selector survives a
first-match modification, provided `f` keeps the non-matching content of
the node it modifies (hypothesis `hf`). -/
theorem mem_preserved_modifyFirst (p : Dom → Bool) (f : Dom → Dom) (d : Dom)
    (hdsub : ∀ m ∈ preorderList [d], p m = false)
    (hf : ∀ n, p n = true → d ∈ preorderList [n] → d ∈ preorderList [f n]) :
    ∀ ds : List Dom, d ∈ preorderList ds →
      d ∈ preorderList (modifyFirst p f ds).1
  | [], h => by simp [preorderList, preorderOne] at h
  | .el t a c s x ch :: ds, h => by
      have hmem : d = Dom.el t a c s x ch ∨ d ∈ preorderList ch ∨
          d ∈ preorderList ds := by
        simpa [preorderList, preorderOne, List.mem_append] using h
      cases hp : p (.el t a c s x ch) with
      | true =>
        simp only [modifyFirst, modifyInto, hp, if_true]
        rw [preorderList_cons_eq]
        rcases hmem with h1 | h2 | h3
        · exact absurd (hdsub d (self_mem_preorderList d)) (by
            rw [← h1] at hp; simp [hp])
        · refine List.mem_append_left _ (hf _ hp ?_)
          simp [preorderList, preorderOne, List.mem_append, h2]
        · exact List.mem_append_right _ h3
      | false =>
        rcases hm : modifyFirst p f ch with ⟨ch', fl⟩
        have hfl : fl = (preorderList ch).any p := by
          rw [← modifyFirst_snd p f ch, hm]
        cases fl with
        | true =>
            rcases hmem with h1 | h2 | h3
            · exfalso
              have : ∃ m ∈ preorderList ch, p m = true :=
                List.any_eq_true.mp hfl.symm
              rcases this with ⟨m, hmch, hpm⟩
              have : p m = false := by
                apply hdsub
                rw [h1]
                simp [preorderList, preorderOne, List.mem_append, hmch]
              simp [this] at hpm
            · have : d ∈ preorderList ch' := by
                have := mem_preserved_modifyFirst p f d hdsub hf ch h2
                rwa [hm] at this
              simp [modifyFirst, modifyInto, hp, hm, preorderList, preorderOne, List.mem_append, this]
            · simp [modifyFirst, modifyInto, hp, hm, preorderList, preorderOne, List.mem_append, h3]
        | false =>
            rcases hd : modifyFirst p f ds with ⟨ds', fl2⟩
            rcases hmem with h1 | h2 | h3
            · simp [modifyFirst, modifyInto, hp, hm, hd, preorderList, preorderOne, List.mem_append,
                h1]
            · simp [modifyFirst, modifyInto, hp, hm, hd, preorderList, preorderOne, List.mem_append,
                h2]
            · have : d ∈ preorderList ds' := by
                have := mem_preserved_modifyFirst p f d hdsub hf ds h3
                rwa [hd] at this
              simp [modifyFirst, modifyInto, hp, hm, hd, preorderList, preorderOne, List.mem_append,
                this]

/-- If no node of the forest satisfies `q`, none does after a first-match
modification, provided `f` cannot introduce a `q`-node into a `q`-free
subtree (hypothesis `hf`). -/
theorem all_not_modifyFirst (p : Dom → Bool) (f : Dom → Dom)
    (q : Dom → Bool)
    (hq : ∀ t a c s x x' ch ch',
      q (.el t a c s x ch) = q (.el t a c s x' ch'))
    (hf : ∀ n, (∀ m ∈ preorderList [n], q m = false) →
      ∀ m ∈ preorderList [f n], q m = false) :
    ∀ ds : List Dom, (∀ m ∈ preorderList ds, q m = false) →
      ∀ m ∈ preorderList (modifyFirst p f ds).1, q m = false
  | [], _ => by simp [modifyFirst, preorderList, preorderOne]
  | .el t a c s x ch :: ds, h => by
      have hhead : ∀ m ∈ preorderList [Dom.el t a c s x ch], q m = false := by
        intro m hm
        apply h
        rw [preorderList_cons_eq]
        exact List.mem_append_left _ hm
      have hch : ∀ m ∈ preorderList ch, q m = false := by
        intro m hm
        apply h
        simp [preorderList, preorderOne, List.mem_append, hm]
      have hds : ∀ m ∈ preorderList ds, q m = false := by
        intro m hm
        apply h
        simp [preorderList, preorderOne, List.mem_append, hm]
      cases hp : p (.el t a c s x ch) with
      | true =>
        simp only [modifyFirst, modifyInto, hp, if_true]
        rw [preorderList_cons_eq]
        intro m hm
        rcases List.mem_append.mp hm with h1 | h2
        · exact hf _ hhead m h1
        · exact hds m h2
      | false =>
        rcases hm : modifyFirst p f ch with ⟨ch', fl⟩
        cases fl with
        | true =>
            have hch' : ∀ m ∈ preorderList ch', q m = false := by
              intro m hmm
              have := all_not_modifyFirst p f q hq hf ch hch m
              rw [hm] at this
              exact this hmm
            intro m hmm
            simp only [modifyFirst, modifyInto, hp, hm] at hmm
            rcases (by
              simpa [preorderList, preorderOne, List.mem_append] using hmm :
                m = Dom.el t a c s x ch' ∨ m ∈ preorderList ch' ∨
                  m ∈ preorderList ds) with h1 | h2 | h3
            · have hold : q (Dom.el t a c s x ch) = false :=
                hhead _ (self_mem_preorderList _)
              subst h1
              rw [hq t a c s x x ch' ch]
              exact hold
            · exact hch' m h2
            · exact hds m h3
        | false =>
            rcases hd : modifyFirst p f ds with ⟨ds', fl2⟩
            have hds' : ∀ m ∈ preorderList ds', q m = false := by
              intro m hmm
              have := all_not_modifyFirst p f q hq hf ds hds m
              rw [hd] at this
              exact this hmm
            intro m hmm
            simp only [modifyFirst, modifyInto, hp, hm, hd] at hmm
            rcases (by
              simpa [preorderList, preorderOne, List.mem_append] using hmm :
                m = Dom.el t a c s x ch ∨ m ∈ preorderList ch ∨
                  m ∈ preorderList ds') with h1 | h2 | h3
            · subst h1
              exact hhead _ (self_mem_preorderList _)
            · exact hch m h2
            · exact hds' m h3

/-- Every tree's pre-order listing starts with the tree itself. -/
theorem preorderList_single (d : Dom) :
    preorderList [d] = d :: preorderList d.children := by
  cases d with
  | el t a c s x ch => simp [preorderList, preorderOne, Dom.children]

/-- The pre-order search through a `cons` forest: head subtree first. -/
theorem find?_pre_cons (p : Dom → Bool) (d : Dom) (ds : List Dom) :
    (preorderList (d :: ds)).find? p
      = ((preorderList [d]).find? p).or ((preorderList ds).find? p) := by
  rw [preorderList_cons_eq]
  exact List.find?_append

/-- The pre-order search of one subtree: the root, then its children. -/
theorem find?_pre_single (p : Dom → Bool) (d : Dom) :
    (preorderList [d]).find? p
      = if p d then some d else (preorderList d.children).find? p := by
  cases d with
  | el t a c s x ch =>
    cases hp : p (.el t a c s x ch) with
    | true => simp [preorderList, preorderOne, List.find?_cons_of_pos, hp, Dom.children]
    | false =>
        simp [preorderList, preorderOne, hp, Dom.children,
          List.find?_cons_of_neg]

/-- An unfruitful pre-order search, from the found flag. -/
theorem find?_pre_eq_none_of_flag {p : Dom → Bool} {f : Dom → Dom}
    {ds : List Dom} {out : List Dom}
    (hm : modifyFirst p f ds = (out, false)) :
    (preorderList ds).find? p = none := by
  have hany : (preorderList ds).any p = false := by
    rw [← modifyFirst_snd p f ds, hm]
  rw [List.find?_eq_none]
  intro n hn hpn
  have : (preorderList ds).any p = true := List.any_eq_true.mpr ⟨n, hn, hpn⟩
  rw [hany] at this
  exact Bool.false_ne_true this

/-- First-match tracking: when the selector ignores text and children
(`hps`) and `f` keeps the selector satisfied (`hpf`), the first `p`-node
of the rewritten forest is `f` of the original first `p`-node. -/
theorem find?_modifyFirst (p : Dom → Bool) (f : Dom → Dom)
    (hps : ∀ t a c s x x' ch ch',
      p (.el t a c s x ch) = p (.el t a c s x' ch'))
    (hpf : ∀ n, p n = true → p (f n) = true) :
    ∀ ds : List Dom,
      (preorderList (modifyFirst p f ds).1).find? p
        = ((preorderList ds).find? p).map f
  | [] => by simp [modifyFirst, preorderList, preorderOne]
  | .el t a c s x ch :: ds => by
      cases hp : p (.el t a c s x ch) with
      | true =>
        have hred : modifyFirst p f (Dom.el t a c s x ch :: ds)
            = (f (Dom.el t a c s x ch) :: ds, true) := by
          simp [modifyFirst, modifyInto, hp]
        rw [hred, find?_pre_cons p (f (Dom.el t a c s x ch)) ds,
          find?_pre_cons p (Dom.el t a c s x ch) ds,
          find?_pre_single p (f (Dom.el t a c s x ch)),
          find?_pre_single p (Dom.el t a c s x ch)]
        simp [hp, hpf _ hp]
      | false =>
        rcases hm : modifyFirst p f ch with ⟨ch', fl⟩
        have hfind := find?_modifyFirst p f hps hpf ch
        rw [hm] at hfind
        cases fl with
        | true =>
            have hred : modifyFirst p f (Dom.el t a c s x ch :: ds)
                = (Dom.el t a c s x ch' :: ds, true) := by
              simp [modifyFirst, modifyInto, hp, hm]
            have hp' : p (Dom.el t a c s x ch') = false := by
              rw [hps t a c s x x ch' ch]; exact hp
            rw [hred, find?_pre_cons p (Dom.el t a c s x ch') ds,
              find?_pre_cons p (Dom.el t a c s x ch) ds,
              find?_pre_single p (Dom.el t a c s x ch'),
              find?_pre_single p (Dom.el t a c s x ch)]
            simp only [hp, hp', if_false, Bool.false_eq_true, Dom.children,
              hfind]
            rcases ho : (preorderList ch).find? p with _ | n0
            · rw [ho] at hfind
              simp at hfind
              have hany : (preorderList ch).any p = true := by
                rw [← modifyFirst_snd p f ch, hm]
              rcases List.any_eq_true.mp hany with ⟨n, hn, hpn⟩
              rw [List.find?_eq_none] at ho
              exact absurd hpn (by simpa using ho n hn)
            · simp [Option.or]
        | false =>
            rcases hd : modifyFirst p f ds with ⟨ds', fl2⟩
            have hfind2 := find?_modifyFirst p f hps hpf ds
            rw [hd] at hfind2
            have hred : modifyFirst p f (Dom.el t a c s x ch :: ds)
                = (Dom.el t a c s x ch :: ds', fl2) := by
              simp [modifyFirst, modifyInto, hp, hm, hd]
            have hnone : (preorderList ch).find? p = none :=
              find?_pre_eq_none_of_flag hm
            rw [hred, find?_pre_cons p (Dom.el t a c s x ch) ds',
              find?_pre_cons p (Dom.el t a c s x ch) ds,
              find?_pre_single p (Dom.el t a c s x ch)]
            simp [hp, Dom.children, hnone, hfind2]

/-- The found flag of `insertAfterFirst` is the pre-order search result. -/
theorem insertAfterFirst_snd (p : Dom → Bool) (nw : Dom) :
    ∀ ds : List Dom, (insertAfterFirst p nw ds).2 = (preorderList ds).any p
  | [] => by simp [insertAfterFirst, preorderList, preorderOne]
  | .el t a c s x ch :: ds => by
      have ih1 := insertAfterFirst_snd p nw ch
      have ih2 := insertAfterFirst_snd p nw ds
      cases hp : p (.el t a c s x ch) with
      | true => simp [insertAfterFirst, insertAfterInto, hp, preorderList, preorderOne]
      | false =>
        rcases hm : insertAfterFirst p nw ch with ⟨ch', fl⟩
        cases fl with
        | true =>
            have hch : (preorderList ch).any p = true := by rw [← ih1, hm]
            simp [insertAfterFirst, insertAfterInto, hp, hm, preorderList, preorderOne, List.any_append,
              hch]
        | false =>
            have hch : (preorderList ch).any p = false := by rw [← ih1, hm]
            simp [insertAfterFirst, insertAfterInto, hp, hm, preorderList, preorderOne, List.any_append,
              hch, ih2]

/-- If the target is found, the node inserted by `insertAfterFirst` is in
the result. -/
theorem mem_insertAfterFirst (p : Dom → Bool) (nw : Dom) :
    ∀ ds : List Dom, (preorderList ds).any p = true →
      nw ∈ preorderList (insertAfterFirst p nw ds).1
  | [], h => by simp [preorderList, preorderOne] at h
  | .el t a c s x ch :: ds, h => by
      cases hp : p (.el t a c s x ch) with
      | true =>
        simp only [insertAfterFirst, insertAfterInto, hp, if_true]
        rw [preorderList_cons_eq, preorderList_cons_eq nw]
        simp [self_mem_preorderList nw]
      | false =>
        have hsplit : (preorderList ch).any p = true ∨
            (preorderList ds).any p = true := by
          rcases (by simpa [preorderList, preorderOne, List.any_append] using h : _) with
            h1 | h2 | h3
          · exact absurd h1 (by simp [hp])
          · exact Or.inl (List.any_eq_true.mpr h2)
          · exact Or.inr (List.any_eq_true.mpr h3)
        rcases hm : insertAfterFirst p nw ch with ⟨ch', fl⟩
        cases fl with
        | true =>
            have : nw ∈ preorderList ch' := by
              rcases hsplit with h2 | h3
              · have := mem_insertAfterFirst p nw ch h2
                rwa [hm] at this
              · -- the flag is true, so the insertion happened inside `ch`
                have hany : (preorderList ch).any p = true := by
                  rw [← insertAfterFirst_snd p nw ch, hm]
                have := mem_insertAfterFirst p nw ch hany
                rwa [hm] at this
            simp [insertAfterFirst, insertAfterInto, hp, hm, preorderList, preorderOne, List.mem_append,
              this]
        | false =>
            have hds : (preorderList ds).any p = true := by
              rcases hsplit with h2 | h3
              · exfalso
                have : (modifyFirst p id ch).2 = (preorderList ch).any p :=
                  modifyFirst_snd p id ch
                have hany : (preorderList ch).any p = false := by
                  rw [← insertAfterFirst_snd p nw ch, hm]
                rw [hany] at h2
                exact Bool.false_ne_true h2
              · exact h3
            rcases hd : insertAfterFirst p nw ds with ⟨ds', fl2⟩
            have : nw ∈ preorderList ds' := by
              have := mem_insertAfterFirst p nw ds hds
              rwa [hd] at this
            simp [insertAfterFirst, insertAfterInto, hp, hm, hd, preorderList, preorderOne, List.mem_append,
              this]

/-! ### Root-level corollaries of the forest lemmas -/

theorem classes_rewriteBelow (d : Dom) (op : List Dom → List Dom × Bool) :
    (d.rewriteBelow op).classes = d.classes := by
  cases d; rfl

theorem attrs_rewriteBelow (d : Dom) (op : List Dom → List Dom × Bool) :
    (d.rewriteBelow op).attrs = d.attrs := by
  cases d; rfl

theorem descendants_rewriteBelow (d : Dom) (op : List Dom → List Dom × Bool) :
    (d.rewriteBelow op).descendants = preorderList (op d.children).1 := by
  cases d; rfl

theorem hasClass_rewriteBelow (d : Dom) (op : List Dom → List Dom × Bool)
    (c : String) : (d.rewriteBelow op).hasClass c = d.hasClass c := by
  cases d; rfl

theorem classes_prependChildRoot (nw d : Dom) :
    (prependChildRoot nw d).classes = d.classes := by
  cases d; rfl

theorem attrs_prependChildRoot (nw d : Dom) :
    (prependChildRoot nw d).attrs = d.attrs := by
  cases d; rfl

theorem descendants_prependChildRoot (nw d : Dom) :
    (prependChildRoot nw d).descendants
      = preorderList [nw] ++ preorderList d.children := by
  cases d with
  | el t a c s x ch =>
    simp only [prependChildRoot, Dom.descendants, Dom.children]
    exact preorderList_cons_eq nw ch

/-- `querySelector` truthiness as a pre-order search. -/
theorem qselB_eq_any (d : Dom) (p : Dom → Bool) :
    d.qselB p = (preorderList d.children).any p := by
  rcases h : (preorderList d.children).find? p with _ | n
  · have := List.find?_eq_none.mp h
    simp only [Dom.qselB, Dom.qsel, Dom.descendants, h, Option.isSome_none]
    have : ¬ ∃ x ∈ preorderList d.children, p x := by
      rintro ⟨x, hx, hpx⟩
      exact (this x hx) hpx
    rcases ha : (preorderList d.children).any p
    · rfl
    · exact absurd (List.any_eq_true.mp ha) this
  · have hn := List.find?_some h
    simp only [Dom.qselB, Dom.qsel, Dom.descendants, h, Option.isSome_some]
    exact (List.any_eq_true.mpr ⟨n, List.mem_of_find?_eq_some h, hn⟩).symm

/-- Pre-order listing distributes over forest concatenation. -/
theorem preorderList_append :
    ∀ l1 l2 : List Dom,
      preorderList (l1 ++ l2) = preorderList l1 ++ preorderList l2
  | [], l2 => by simp [preorderList, preorderOne]
  | d :: l1, l2 => by
      rw [List.cons_append, preorderList_cons_eq, preorderList_cons_eq d l1,
        preorderList_append l1 l2, List.append_assoc]

theorem mem_pre_appendChildF (nw n : Dom) :
    nw ∈ preorderList [appendChildF nw n] := by
  cases n with
  | el t a c s x ch =>
    rw [preorderList_single]
    refine List.mem_cons_of_mem _ ?_
    simp only [appendChildF, Dom.children]
    rw [preorderList_append]
    exact List.mem_append_right _ (self_mem_preorderList nw)

theorem mem_pre_prependChildF (nw n : Dom) :
    nw ∈ preorderList [prependChildF nw n] := by
  cases n with
  | el t a c s x ch =>
    rw [preorderList_single]
    refine List.mem_cons_of_mem _ ?_
    simp only [prependChildF, Dom.children]
    rw [preorderList_cons_eq]
    exact List.mem_append_left _ (self_mem_preorderList nw)

/-- Subtree members survive `appendChildF` of the enclosing node. -/
theorem mem_pre_appendChildF_of_mem {d : Dom} (nw : Dom) {n : Dom}
    (hne : d ≠ n) (hd : d ∈ preorderList [n]) :
    d ∈ preorderList [appendChildF nw n] := by
  rcases n with ⟨t, a, c, s, x, ch⟩
  rw [preorderList_single] at hd
  rcases List.mem_cons.mp hd with hd | hd
  · exact absurd hd hne
  · rw [preorderList_single]
    refine List.mem_cons_of_mem _ ?_
    simp only [appendChildF, Dom.children] at hd ⊢
    rw [preorderList_append]
    exact List.mem_append_left _ hd

/-- Subtree members survive `prependChildF` of the enclosing node. -/
theorem mem_pre_prependChildF_of_mem {d : Dom} (nw : Dom) {n : Dom}
    (hne : d ≠ n) (hd : d ∈ preorderList [n]) :
    d ∈ preorderList [prependChildF nw n] := by
  rcases n with ⟨t, a, c, s, x, ch⟩
  rw [preorderList_single] at hd
  rcases List.mem_cons.mp hd with hd | hd
  · exact absurd hd hne
  · rw [preorderList_single]
    refine List.mem_cons_of_mem _ ?_
    simp only [prependChildF, Dom.children] at hd ⊢
    rw [preorderList_cons_eq]
    exact List.mem_append_right _ hd

theorem children_rewriteBelow (d : Dom) (op : List Dom → List Dom × Bool) :
    (d.rewriteBelow op).children = (op d.children).1 := by
  cases d; rfl

theorem text_rewriteBelow (d : Dom) (op : List Dom → List Dom × Bool) :
    (d.rewriteBelow op).text = d.text := by
  cases d; rfl

/-- `querySelector` as a search of the children forest. -/
theorem qsel_eq_find? (d : Dom) (p : Dom → Bool) :
    d.qsel p = (preorderList d.children).find? p := rfl

/-- A member of a listed tree's children forest is in the forest's
pre-order listing. -/
theorem mem_pre_trans (m : Dom) :
    ∀ ds : List Dom, ∀ c ∈ preorderList ds, m ∈ preorderList c.children →
      m ∈ preorderList ds
  | [], c, hc, _ => by simp [preorderList, preorderOne] at hc
  | .el t a c0 s x ch :: ds, c, hc, hm => by
      rcases (by simpa [preorderList, preorderOne, List.mem_append] using hc :
          c = Dom.el t a c0 s x ch ∨ c ∈ preorderList ch ∨
            c ∈ preorderList ds) with h1 | h2 | h3
      · subst h1
        simp only [Dom.children] at hm
        simp [preorderList, preorderOne, List.mem_append, hm]
      · have := mem_pre_trans m ch c h2 hm
        simp [preorderList, preorderOne, List.mem_append, this]
      · have := mem_pre_trans m ds c h3 hm
        simp [preorderList, preorderOne, List.mem_append, this]

/-- The container just created by `ensureBadgeContainer` satisfies the
container selector (its class list is literal). -/
theorem selContainer_newContainer : selContainer newContainer = true := rfl

/-- A matching strict descendant makes `querySelector` truthy. -/
theorem qselB_true_of_mem {d : Dom} {p : Dom → Bool} {m : Dom}
    (hm : m ∈ d.descendants) (hp : p m = true) : d.qselB p = true := by
  have : d.qselB p = d.descendants.any p := qselB_eq_any d p
  rw [this]
  exact List.any_eq_true.mpr ⟨m, hm, hp⟩

/-- The container node `ensureBadgeContainer` returns exists among the
element's strict descendants, whatever the element. -/
theorem container_exists_ensure (el : Dom) :
    (ensureBadgeContainer el).qselB selContainer = true := by
  unfold ensureBadgeContainer
  cases h0 : el.qselB selContainer with
  | true => simp [h0]
  | false =>
    by_cases h1 : (el.hasClass "entry--titleOnly" && el.qselB selMetadata)
      = true
    · rw [if_neg (by simp [h0]), if_pos h1]
      refine qselB_true_of_mem ?_ selContainer_newContainer
      rw [Dom.descendants, prependIntoFirst, children_rewriteBelow]
      apply mem_insert_modifyFirst _ _ _
        (fun n _ => mem_pre_prependChildF newContainer n)
      rw [← qselB_eq_any]
      exact (Bool.and_elim_right h1)
    · by_cases h2 : (el.hasClass "entry--titleOnly" && el.qselB selTitleLink)
        = true
      · rw [if_neg (by simp [h0]), if_neg h1, if_pos h2]
        refine qselB_true_of_mem ?_ selContainer_newContainer
        rw [Dom.descendants, children_rewriteBelow]
        apply mem_insertAfterFirst
        rw [← qselB_eq_any]
        exact (Bool.and_elim_right h2)
      · by_cases h3 : el.qselB selEntryInfo = true
        · rw [if_neg (by simp [h0]), if_neg h1, if_neg h2, if_pos h3]
          refine qselB_true_of_mem ?_ selContainer_newContainer
          rw [Dom.descendants, appendIntoFirst, children_rewriteBelow]
          apply mem_insert_modifyFirst _ _ _
            (fun n _ => mem_pre_appendChildF newContainer n)
          rw [← qselB_eq_any]
          exact h3
        · by_cases h4 : el.qselB selTitleContainer = true
          · rw [if_neg (by simp [h0]), if_neg h1, if_neg h2, if_neg h3,
              if_pos h4]
            refine qselB_true_of_mem ?_ selContainer_newContainer
            rw [Dom.descendants, prependIntoFirst, children_rewriteBelow]
            apply mem_insert_modifyFirst _ _ _
              (fun n _ => mem_pre_prependChildF newContainer n)
            rw [← qselB_eq_any]
            exact h4
          · rw [if_neg (by simp [h0]), if_neg h1, if_neg h2, if_neg h3,
              if_neg h4]
            refine qselB_true_of_mem ?_ selContainer_newContainer
            rw [descendants_prependChildRoot]
            exact List.mem_append_left _ (self_mem_preorderList _)

/-- Class selectors ignore attributes, style, text and children. -/
theorem hasClass_shape (t : String) (a : List (String × String))
    (c : List String) (s : List (String × String)) (x x' : String)
    (ch ch' : List Dom) (cl : String) (a' : List (String × String))
    (s' : List (String × String)) :
    (Dom.el t a c s x ch).hasClass cl = (Dom.el t a' c s' x' ch').hasClass cl
    := rfl

theorem selContainer_clearF (n : Dom) : selContainer (clearF n) = selContainer n := by
  cases n; rfl

theorem selContainer_appendChildF (x n : Dom) :
    selContainer (appendChildF x n) = selContainer n := by
  cases n; rfl

/-- Clearing the first container leaves the (cleared) container as the
first container. -/
theorem qsel_clearFirst_container (root : Dom) :
    (clearFirst selContainer root).qsel selContainer
      = (root.qsel selContainer).map clearF := by
  rw [qsel_eq_find?, qsel_eq_find?, clearFirst, children_rewriteBelow]
  exact find?_modifyFirst selContainer clearF
    (fun t a c s x x' ch ch' => rfl)
    (fun n hn => by rw [selContainer_clearF]; exact hn) root.children

/-- Appending into the first container leaves it first. -/
theorem qsel_appendInto_container (x : Dom) (root : Dom) :
    (appendIntoFirst selContainer x root).qsel selContainer
      = (root.qsel selContainer).map (appendChildF x) := by
  rw [qsel_eq_find?, qsel_eq_find?, appendIntoFirst, children_rewriteBelow]
  exact find?_modifyFirst selContainer (appendChildF x)
    (fun t a c s x1 x2 ch ch' => rfl)
    (fun n hn => by rw [selContainer_appendChildF]; exact hn) root.children

/-- What a cleared-then-appended container holds: exactly the appended
node. -/
theorem qselB_appendChildF_clearF (c x : Dom) (q : Dom → Bool) :
    (appendChildF x (clearF c)).qselB q = (preorderList [x]).any q := by
  cases c with
  | el t a cl s tx ch =>
    have : (appendChildF x (clearF (Dom.el t a cl s tx ch))).children = [x] :=
      rfl
    rw [qselB_eq_any, this]

/-- Original nodes whose subtree avoids the selector survive
`appendIntoFirst`. -/
theorem mem_desc_appendIntoFirst (p : Dom → Bool) (x d root : Dom)
    (hdsub : ∀ m ∈ preorderList [d], p m = false) :
    d ∈ root.descendants → d ∈ (appendIntoFirst p x root).descendants := by
  intro hd
  rw [Dom.descendants, appendIntoFirst, children_rewriteBelow]
  apply mem_preserved_modifyFirst p (appendChildF x) d hdsub
  · intro n hpn hdn
    have hne : d ≠ n := by
      intro he
      have := hdsub d (self_mem_preorderList d)
      rw [he, hpn] at this
      simp at this
    exact mem_pre_appendChildF_of_mem x hne hdn
  · exact hd

/-- Original nodes whose subtree avoids the selector survive
`prependIntoFirst`. -/
theorem mem_desc_prependIntoFirst (p : Dom → Bool) (x d root : Dom)
    (hdsub : ∀ m ∈ preorderList [d], p m = false) :
    d ∈ root.descendants → d ∈ (prependIntoFirst p x root).descendants := by
  intro hd
  rw [Dom.descendants, prependIntoFirst, children_rewriteBelow]
  apply mem_preserved_modifyFirst p (prependChildF x) d hdsub
  · intro n hpn hdn
    have hne : d ≠ n := by
      intro he
      have := hdsub d (self_mem_preorderList d)
      rw [he, hpn] at this
      simp at this
    exact mem_pre_prependChildF_of_mem x hne hdn
  · exact hd

/-- The badge just appended into the ensured, cleared container. -/
theorem mem_desc_appendIntoFirst_self (p : Dom → Bool) (x root : Dom)
    (hfound : root.qselB p = true) :
    x ∈ (appendIntoFirst p x root).descendants := by
  rw [Dom.descendants, appendIntoFirst, children_rewriteBelow]
  apply mem_insert_modifyFirst _ _ _ (fun n _ => mem_pre_appendChildF x n)
  rw [← qselB_eq_any]
  exact hfound

/-! ### Scalar root fields survive every reconciler mutation -/

theorem hasClass_prependChildRoot (nw d : Dom) (c : String) :
    (prependChildRoot nw d).hasClass c = d.hasClass c := by
  cases d; rfl

theorem hasClass_ensure (el : Dom) (c : String) :
    (ensureBadgeContainer el).hasClass c = el.hasClass c := by
  unfold ensureBadgeContainer
  split
  · rfl
  · split
    · exact hasClass_rewriteBelow ..
    · split
      · exact hasClass_rewriteBelow ..
      · split
        · exact hasClass_rewriteBelow ..
        · split
          · exact hasClass_rewriteBelow ..
          · exact hasClass_prependChildRoot ..

theorem attrs_ensure (el : Dom) :
    (ensureBadgeContainer el).attrs = el.attrs := by
  unfold ensureBadgeContainer
  split
  · rfl
  · split
    · exact attrs_rewriteBelow ..
    · split
      · exact attrs_rewriteBelow ..
      · split
        · exact attrs_rewriteBelow ..
        · split
          · exact attrs_rewriteBelow ..
          · exact attrs_prependChildRoot ..

theorem hasClass_stageReason (el1 : Dom) (hI hE : Bool)
    (rr : Option String) (c : String) :
    (stageReason el1 hI hE rr).hasClass c = el1.hasClass c := by
  unfold stageReason
  split
  · exact hasClass_rewriteBelow ..
  · rfl

theorem attrs_stageReason (el1 : Dom) (hI hE : Bool) (rr : Option String) :
    (stageReason el1 hI hE rr).attrs = el1.attrs := by
  unfold stageReason
  split
  · exact attrs_rewriteBelow ..
  · rfl

theorem attrs_stageHeader (el2 : Dom) (hI hE : Bool) (sc : String) :
    (stageHeader el2 hI hE sc).attrs = el2.attrs := by
  unfold stageHeader
  split
  · split
    · split
      · exact attrs_rewriteBelow ..
      · rfl
    · rfl
  · rfl

theorem attrs_stageBtn (el3 : Dom) : (stageBtn el3).attrs = el3.attrs := by
  unfold stageBtn
  split
  · exact attrs_rewriteBelow ..
  · rfl

theorem attrs_stageRelated (el4 : Dom) (hI hE : Bool) :
    (stageRelated el4 hI hE).1.attrs = el4.attrs := by
  unfold stageRelated
  split
  · split
    · split
      · exact attrs_rewriteBelow ..
      · rfl
    · rfl
  · rfl

/-! ### Membership preservation through the reconciler stages -/

theorem qselB_false_of_allnot {root : Dom} {q : Dom → Bool}
    (h : ∀ m ∈ root.descendants, q m = false) : root.qselB q = false := by
  have he : root.qselB q = root.descendants.any q := qselB_eq_any root q
  rw [he]
  rcases ha : root.descendants.any q
  · rfl
  · rcases List.any_eq_true.mp ha with ⟨m, hm, hqm⟩
    rw [h m hm] at hqm
    exact absurd hqm (by simp)

theorem mem_desc_stageReason (d el1 : Dom) (hI hE : Bool)
    (rr : Option String)
    (hdC : ∀ m ∈ preorderList [d], selContainer m = false) :
    d ∈ el1.descendants → d ∈ (stageReason el1 hI hE rr).descendants := by
  intro hd
  unfold stageReason
  split
  · exact mem_desc_appendIntoFirst _ _ _ _ hdC hd
  · exact hd

theorem mem_desc_stageHeader (d el2 : Dom) (hI hE : Bool) (sc : String)
    (hdB : ∀ m ∈ preorderList [d], selContentBody m = false) :
    d ∈ el2.descendants → d ∈ (stageHeader el2 hI hE sc).descendants := by
  intro hd
  unfold stageHeader
  split
  · split
    · split
      · exact mem_desc_prependIntoFirst _ _ _ _ hdB hd
      · exact hd
    · exact hd
  · exact hd

theorem mem_desc_stageBtn (d el3 : Dom)
    (hdC : ∀ m ∈ preorderList [d], selContainer m = false) :
    d ∈ el3.descendants → d ∈ (stageBtn el3).descendants := by
  intro hd
  unfold stageBtn
  split
  · exact mem_desc_appendIntoFirst _ _ _ _ hdC hd
  · exact hd

theorem mem_desc_stageRelated (d el4 : Dom) (hI hE : Bool)
    (hdB : ∀ m ∈ preorderList [d], selContentBody m = false) :
    d ∈ el4.descendants → d ∈ (stageRelated el4 hI hE).1.descendants := by
  intro hd
  unfold stageRelated
  split
  · split
    · split
      · exact mem_desc_appendIntoFirst _ _ _ _ hdB hd
      · exact hd
    · exact hd
  · exact hd

/-! ### Existence and non-existence preservation -/

/-- Some `q`-node survives any first-match modification, when `q` ignores
text and children (`hq`) and `f` preserves the node's own subtree
`q`-presence (`hfsub`). -/
theorem any_pres_modifyFirst (p : Dom → Bool) (f : Dom → Dom)
    (q : Dom → Bool)
    (hq : ∀ t a c s x x' ch ch',
      q (.el t a c s x ch) = q (.el t a c s x' ch'))
    (hfsub : ∀ n, (preorderList [n]).any q = true →
      (preorderList [f n]).any q = true) :
    ∀ ds : List Dom, (preorderList ds).any q = true →
      (preorderList (modifyFirst p f ds).1).any q = true
  | [], h => by simp [preorderList, preorderOne] at h
  | .el t a c s x ch :: ds, h => by
      have hsplit : (preorderList [Dom.el t a c s x ch]).any q = true ∨
          (preorderList ds).any q = true := by
        rw [preorderList_cons_eq, List.any_append] at h
        exact Bool.or_eq_true_iff.mp h
      cases hp : p (.el t a c s x ch) with
      | true =>
        simp only [modifyFirst, modifyInto, hp, if_true]
        rw [preorderList_cons_eq, List.any_append]
        rcases hsplit with h1 | h2
        · exact Bool.or_eq_true_iff.mpr (Or.inl (hfsub _ h1))
        · exact Bool.or_eq_true_iff.mpr (Or.inr h2)
      | false =>
        rcases hm : modifyFirst p f ch with ⟨ch', fl⟩
        cases fl with
        | true =>
          have hred : modifyFirst p f (Dom.el t a c s x ch :: ds)
              = (Dom.el t a c s x ch' :: ds, true) := by
            simp [modifyFirst, modifyInto, hp, hm]
          rw [hred]
          rcases hsplit with h1 | h2
          · rw [preorderList_single] at h1
            simp only [List.any_cons, Dom.children] at h1
            rcases Bool.or_eq_true_iff.mp h1 with hh | hc
            · have : q (Dom.el t a c s x ch') = true := by
                rw [hq t a c s x x ch' ch]; exact hh
              simp [preorderList, preorderOne, this]
            · have : (preorderList ch').any q = true := by
                have := any_pres_modifyFirst p f q hq hfsub ch hc
                rwa [hm] at this
              simp [preorderList, preorderOne, List.any_append, this]
          · simp [preorderList, preorderOne, List.any_append, h2]
        | false =>
          rcases hd : modifyFirst p f ds with ⟨ds', fl2⟩
          have hred : modifyFirst p f (Dom.el t a c s x ch :: ds)
              = (Dom.el t a c s x ch :: ds', fl2) := by
            simp [modifyFirst, modifyInto, hp, hm, hd]
          rw [hred]
          rcases hsplit with h1 | h2
          · rw [preorderList_cons_eq, List.any_append]
            exact Bool.or_eq_true_iff.mpr (Or.inl h1)
          · have : (preorderList ds').any q = true := by
              have := any_pres_modifyFirst p f q hq hfsub ds h2
              rwa [hd] at this
            rw [preorderList_cons_eq, List.any_append]
            exact Bool.or_eq_true_iff.mpr (Or.inr this)

/-- `appendChildF` keeps the node's subtree `q`-presence. -/
theorem any_pre_appendChildF (x : Dom) (q : Dom → Bool)
    (hq : ∀ t a c s tx tx' ch ch',
      q (.el t a c s tx ch) = q (.el t a c s tx' ch')) (n : Dom) :
    (preorderList [n]).any q = true →
      (preorderList [appendChildF x n]).any q = true := by
  intro h
  cases n with
  | el t a c s tx ch =>
    rw [show (appendChildF x (Dom.el t a c s tx ch))
        = Dom.el t a c s tx (ch ++ [x]) from rfl]
    rw [preorderList_single] at h ⊢
    simp only [List.any_cons, Dom.children] at h ⊢
    rw [preorderList_append, List.any_append]
    rcases Bool.or_eq_true_iff.mp h with hh | hc
    · refine Bool.or_eq_true_iff.mpr (Or.inl ?_)
      rw [hq t a c s tx tx (ch ++ [x]) ch]
      exact hh
    · exact Bool.or_eq_true_iff.mpr (Or.inr
        (Bool.or_eq_true_iff.mpr (Or.inl hc)))

/-- No `q`-node can appear after `insertAfterFirst` of a `q`-free node
into a `q`-free forest (with `q` ignoring text and children). -/
theorem all_not_insertAfterFirst (p : Dom → Bool) (nw : Dom)
    (q : Dom → Bool)
    (hq : ∀ t a c s x x' ch ch',
      q (.el t a c s x ch) = q (.el t a c s x' ch'))
    (hx : ∀ m ∈ preorderList [nw], q m = false) :
    ∀ ds : List Dom, (∀ m ∈ preorderList ds, q m = false) →
      ∀ m ∈ preorderList (insertAfterFirst p nw ds).1, q m = false
  | [], _ => by simp [insertAfterFirst, preorderList, preorderOne]
  | .el t a c s x ch :: ds, h => by
      have hhead : ∀ m ∈ preorderList [Dom.el t a c s x ch], q m = false := by
        intro m hm
        apply h
        rw [preorderList_cons_eq]
        exact List.mem_append_left _ hm
      have hch : ∀ m ∈ preorderList ch, q m = false := by
        intro m hm
        apply h
        simp [preorderList, preorderOne, List.mem_append, hm]
      have hds : ∀ m ∈ preorderList ds, q m = false := by
        intro m hm
        apply h
        simp [preorderList, preorderOne, List.mem_append, hm]
      cases hp : p (.el t a c s x ch) with
      | true =>
        simp only [insertAfterFirst, insertAfterInto, hp, if_true]
        intro m hm
        rw [preorderList_cons_eq] at hm
        rcases List.mem_append.mp hm with h1 | h2
        · exact hhead m h1
        · rw [preorderList_cons_eq] at h2
          rcases List.mem_append.mp h2 with h3 | h4
          · exact hx m h3
          · exact hds m h4
      | false =>
        rcases hm : insertAfterFirst p nw ch with ⟨ch', fl⟩
        cases fl with
        | true =>
            have hch' : ∀ m ∈ preorderList ch', q m = false := by
              intro m hmm
              have := all_not_insertAfterFirst p nw q hq hx ch hch m
              rw [hm] at this
              exact this hmm
            intro m hmm
            simp only [insertAfterFirst, insertAfterInto, hp, hm] at hmm
            rcases (by
              simpa [preorderList, preorderOne, List.mem_append] using hmm :
                m = Dom.el t a c s x ch' ∨ m ∈ preorderList ch' ∨
                  m ∈ preorderList ds) with h1 | h2 | h3
            · subst h1
              have hold : q (Dom.el t a c s x ch) = false :=
                hhead _ (self_mem_preorderList _)
              rw [hq t a c s x x ch' ch]
              exact hold
            · exact hch' m h2
            · exact hds m h3
        | false =>
            rcases hd : insertAfterFirst p nw ds with ⟨ds', fl2⟩
            have hds' : ∀ m ∈ preorderList ds', q m = false := by
              intro m hmm
              have := all_not_insertAfterFirst p nw q hq hx ds hds m
              rw [hd] at this
              exact this hmm
            intro m hmm
            simp only [insertAfterFirst, insertAfterInto, hp, hm, hd] at hmm
            rcases (by
              simpa [preorderList, preorderOne, List.mem_append] using hmm :
                m = Dom.el t a c s x ch ∨ m ∈ preorderList ch ∨
                  m ∈ preorderList ds') with h1 | h2 | h3
            · subst h1
              exact hhead _ (self_mem_preorderList _)
            · exact hch m h2
            · exact hds' m h3

theorem allnot_pre_appendChildF (x n : Dom) (q : Dom → Bool)
    (hq : ∀ t a c s tx tx' ch ch',
      q (.el t a c s tx ch) = q (.el t a c s tx' ch'))
    (hx : ∀ m ∈ preorderList [x], q m = false)
    (hn : ∀ m ∈ preorderList [n], q m = false) :
    ∀ m ∈ preorderList [appendChildF x n], q m = false := by
  cases n with
  | el t a c s tx ch =>
    intro m hm
    rw [show (appendChildF x (Dom.el t a c s tx ch))
        = Dom.el t a c s tx (ch ++ [x]) from rfl] at hm
    rw [preorderList_single] at hm
    simp only [Dom.children] at hm
    rw [preorderList_append] at hm
    rcases List.mem_cons.mp hm with h1 | h2
    · subst h1
      rw [hq t a c s tx tx (ch ++ [x]) ch]
      exact hn _ (self_mem_preorderList _)
    · rcases List.mem_append.mp h2 with h3 | h4
      · apply hn
        rw [preorderList_single]
        exact List.mem_cons_of_mem _ h3
      · exact hx m h4

theorem allnot_pre_prependChildF (x n : Dom) (q : Dom → Bool)
    (hq : ∀ t a c s tx tx' ch ch',
      q (.el t a c s tx ch) = q (.el t a c s tx' ch'))
    (hx : ∀ m ∈ preorderList [x], q m = false)
    (hn : ∀ m ∈ preorderList [n], q m = false) :
    ∀ m ∈ preorderList [prependChildF x n], q m = false := by
  cases n with
  | el t a c s tx ch =>
    intro m hm
    rw [show (prependChildF x (Dom.el t a c s tx ch))
        = Dom.el t a c s tx (x :: ch) from rfl] at hm
    rw [preorderList_single] at hm
    simp only [Dom.children] at hm
    rw [preorderList_cons_eq] at hm
    rcases List.mem_cons.mp hm with h1 | h2
    · subst h1
      rw [hq t a c s tx tx (x :: ch) ch]
      exact hn _ (self_mem_preorderList _)
    · rcases List.mem_append.mp h2 with h3 | h4
      · exact hx m h3
      · apply hn
        rw [preorderList_single]
        exact List.mem_cons_of_mem _ h4

theorem allnot_pre_clearF (n : Dom) (q : Dom → Bool)
    (hq : ∀ t a c s tx tx' ch ch',
      q (.el t a c s tx ch) = q (.el t a c s tx' ch'))
    (hn : ∀ m ∈ preorderList [n], q m = false) :
    ∀ m ∈ preorderList [clearF n], q m = false := by
  cases n with
  | el t a c s tx ch =>
    intro m hm
    rw [show (clearF (Dom.el t a c s tx ch))
        = Dom.el t a c s "" [] from rfl] at hm
    rw [preorderList_single] at hm
    simp only [Dom.children, preorderList] at hm
    rcases List.mem_cons.mp hm with h1 | h2
    · subst h1
      rw [hq t a c s "" tx [] ch]
      exact hn _ (self_mem_preorderList _)
    · simp at h2

theorem allnot_desc_appendIntoFirst (p : Dom → Bool) (x root : Dom)
    (q : Dom → Bool)
    (hq : ∀ t a c s tx tx' ch ch',
      q (.el t a c s tx ch) = q (.el t a c s tx' ch'))
    (hx : ∀ m ∈ preorderList [x], q m = false)
    (h : ∀ m ∈ root.descendants, q m = false) :
    ∀ m ∈ (appendIntoFirst p x root).descendants, q m = false := by
  rw [Dom.descendants, appendIntoFirst, children_rewriteBelow]
  exact all_not_modifyFirst p (appendChildF x) q hq
    (fun n hn => allnot_pre_appendChildF x n q hq hx hn) root.children h

theorem allnot_desc_prependIntoFirst (p : Dom → Bool) (x root : Dom)
    (q : Dom → Bool)
    (hq : ∀ t a c s tx tx' ch ch',
      q (.el t a c s tx ch) = q (.el t a c s tx' ch'))
    (hx : ∀ m ∈ preorderList [x], q m = false)
    (h : ∀ m ∈ root.descendants, q m = false) :
    ∀ m ∈ (prependIntoFirst p x root).descendants, q m = false := by
  rw [Dom.descendants, prependIntoFirst, children_rewriteBelow]
  exact all_not_modifyFirst p (prependChildF x) q hq
    (fun n hn => allnot_pre_prependChildF x n q hq hx hn) root.children h

theorem allnot_desc_clearFirst (p : Dom → Bool) (root : Dom)
    (q : Dom → Bool)
    (hq : ∀ t a c s tx tx' ch ch',
      q (.el t a c s tx ch) = q (.el t a c s tx' ch'))
    (h : ∀ m ∈ root.descendants, q m = false) :
    ∀ m ∈ (clearFirst p root).descendants, q m = false := by
  rw [Dom.descendants, clearFirst, children_rewriteBelow]
  exact all_not_modifyFirst p clearF q hq
    (fun n hn => allnot_pre_clearF n q hq hn) root.children h

/-- No `q`-node appears from `ensureBadgeContainer` when the element is
`q`-free below and `q` ignores text and children (the created container
carries only its own literal class). -/
theorem allnot_desc_ensure (el : Dom) (q : Dom → Bool)
    (hq : ∀ t a c s tx tx' ch ch',
      q (.el t a c s tx ch) = q (.el t a c s tx' ch'))
    (hcont : ∀ m ∈ preorderList [newContainer], q m = false)
    (h : ∀ m ∈ el.descendants, q m = false) :
    ∀ m ∈ (ensureBadgeContainer el).descendants, q m = false := by
  unfold ensureBadgeContainer
  split
  · exact h
  · split
    · exact allnot_desc_prependIntoFirst _ _ _ _ hq hcont h
    · split
      · rw [Dom.descendants, children_rewriteBelow]
        exact all_not_insertAfterFirst _ _ _ hq hcont el.children h
      · split
        · exact allnot_desc_appendIntoFirst _ _ _ _ hq hcont h
        · split
          · exact allnot_desc_prependIntoFirst _ _ _ _ hq hcont h
          · intro m hm
            rw [descendants_prependChildRoot] at hm
            rcases List.mem_append.mp hm with h1 | h2
            · exact hcont m h1
            · exact h m h2

/-- Some `q`-node survives `appendIntoFirst` (for class-like `q`). -/
theorem any_desc_appendIntoFirst (p : Dom → Bool) (x root : Dom)
    (q : Dom → Bool)
    (hq : ∀ t a c s tx tx' ch ch',
      q (.el t a c s tx ch) = q (.el t a c s tx' ch'))
    (h : root.descendants.any q = true) :
    (appendIntoFirst p x root).descendants.any q = true := by
  rw [Dom.descendants, appendIntoFirst, children_rewriteBelow]
  exact any_pres_modifyFirst p (appendChildF x) q hq
    (fun n hn => any_pre_appendChildF x q hq n hn) root.children h

/-! ### Facts about the concrete nodes the reconciler creates -/

theorem pre_mkBadge (s : Option Rat) :
    preorderList [mkBadge s] = [mkBadge s] := rfl

theorem pre_mkReasonEl (r : String) :
    preorderList [mkReasonEl r] = [mkReasonEl r] := rfl

theorem pre_newContainer : preorderList [newContainer] = [newContainer] :=
  rfl

theorem pre_mkSummaryBtn :
    preorderList [mkSummaryBtn] = [mkSummaryBtn, mkSpinner] := rfl

/-- Predicate values on created leaves, bundled for reuse: badge. -/
theorem mkBadge_free (s : Option Rat) (q : Dom → Bool)
    (hq : q (mkBadge s) = false) :
    ∀ m ∈ preorderList [mkBadge s], q m = false := by
  intro m hm
  rw [pre_mkBadge] at hm
  rcases List.mem_singleton.mp hm with rfl
  exact hq

theorem mkReasonEl_free (r : String) (q : Dom → Bool)
    (hq : q (mkReasonEl r) = false) :
    ∀ m ∈ preorderList [mkReasonEl r], q m = false := by
  intro m hm
  rw [pre_mkReasonEl] at hm
  rcases List.mem_singleton.mp hm with rfl
  exact hq

theorem newContainer_free (q : Dom → Bool) (hq : q newContainer = false) :
    ∀ m ∈ preorderList [newContainer], q m = false := by
  intro m hm
  rw [pre_newContainer] at hm
  rcases List.mem_singleton.mp hm with rfl
  exact hq

theorem mkSummaryBtn_free (q : Dom → Bool) (hq1 : q mkSummaryBtn = false)
    (hq2 : q mkSpinner = false) :
    ∀ m ∈ preorderList [mkSummaryBtn], q m = false := by
  intro m hm
  rw [pre_mkSummaryBtn] at hm
  rcases List.mem_cons.mp hm with rfl | hm2
  · exact hq1
  · rcases List.mem_singleton.mp hm2 with rfl
    exact hq2

/-- Class selectors are blind to text and children: packaged per
selector. -/
theorem selReasonText_shape (t : String) (a : List (String × String))
    (c : List String) (s : List (String × String)) (x x' : String)
    (ch ch' : List Dom) :
    selReasonText (.el t a c s x ch) = selReasonText (.el t a c s x' ch') :=
  rfl

theorem selEntryInfo_shape (t : String) (a : List (String × String))
    (c : List String) (s : List (String × String)) (x x' : String)
    (ch ch' : List Dom) :
    selEntryInfo (.el t a c s x ch) = selEntryInfo (.el t a c s x' ch') :=
  rfl

theorem selSummaryBtn_shape (t : String) (a : List (String × String))
    (c : List String) (s : List (String × String)) (x x' : String)
    (ch ch' : List Dom) :
    selSummaryBtn (.el t a c s x ch) = selSummaryBtn (.el t a c s x' ch') :=
  rfl

/-- The ensured container still exists after the clear, and the badge
lands inside it: the two chained facts every render proof starts from. -/
theorem container_after_clear (el : Dom) :
    (clearFirst selContainer (ensureBadgeContainer el)).qselB selContainer
      = true := by
  have h := container_exists_ensure el
  simp only [Dom.qselB] at h ⊢
  rw [qsel_clearFirst_container]
  rcases ho : (ensureBadgeContainer el).qsel selContainer with _ | c
  · rw [ho] at h
    simp at h
  · simp

/-- The container of the badge-carrying tree `el1` holds exactly the
badge, so searches inside it are searches of the badge alone. -/
theorem containerHas_after_badge (el : Dom) (s : Option Rat)
    (q : Dom → Bool) :
    containerHas
      (appendIntoFirst selContainer (mkBadge s)
        (clearFirst selContainer (ensureBadgeContainer el))) q
      = q (mkBadge s) := by
  have h := container_exists_ensure el
  simp only [Dom.qselB] at h
  rcases ho : (ensureBadgeContainer el).qsel selContainer with _ | c
  · rw [ho] at h
    exact absurd h (by decide)
  · unfold containerHas
    rw [qsel_appendInto_container, qsel_clearFirst_container, ho]
    simp only [Option.map_some']
    rw [qselB_appendChildF_clearF, pre_mkBadge]
    rw [List.any_cons, List.any_nil, Bool.or_false]

/-- Expanded-marker classes on the element root survive the whole badge
pipeline. -/
theorem hasClass_el1 (el : Dom) (s : Option Rat) (c : String) :
    (appendIntoFirst selContainer (mkBadge s)
      (clearFirst selContainer (ensureBadgeContainer el))).hasClass c
      = el.hasClass c := by
  rw [appendIntoFirst, hasClass_rewriteBelow, clearFirst,
    hasClass_rewriteBelow, hasClass_ensure]

/-- The badge pipeline keeps the container present. -/
theorem qselB_el1 (el : Dom) (s : Option Rat) :
    (appendIntoFirst selContainer (mkBadge s)
      (clearFirst selContainer (ensureBadgeContainer el))).qselB selContainer
      = true := by
  have h := container_after_clear el
  simp only [Dom.qselB] at h ⊢
  rw [qsel_appendInto_container]
  rcases ho : (clearFirst selContainer (ensureBadgeContainer el)).qsel
      selContainer with _ | c
  · rw [ho] at h
    exact absurd h (by decide)
  · simp

/-- When the view is expanded, the reason is truthy and the container
holds no rationale yet, the rationale stage appends one. -/
theorem stageReason_fires (el1 : Dom) (hI hE : Bool) (r : String)
    (hE1 : hE = true) (hr : r ≠ "")
    (hch : containerHas el1 selReasonText = false) :
    stageReason el1 hI hE (some r)
      = appendIntoFirst selContainer (mkReasonEl r) el1 := by
  simp [stageReason, hE1, truthyS, hr, hch, Option.getD]

theorem stageReason_noop (el1 : Dom) (hI hE : Bool) (rr : Option String)
    (h1 : hI = false) (h2 : hE = false) :
    stageReason el1 hI hE rr = el1 := by
  simp [stageReason, h1, h2]

theorem stageHeader_noop (el2 : Dom) (hI hE : Bool) (sc : String)
    (h1 : hI = false) (h2 : hE = false) :
    stageHeader el2 hI hE sc = el2 := by
  simp [stageHeader, h1, h2]

theorem stageRelated_noop (el4 : Dom) (hI hE : Bool)
    (h1 : hI = false) (h2 : hE = false) :
    stageRelated el4 hI hE = (el4, false) := by
  simp [stageRelated, h1, h2]

/-- **C7** For every found verdict, `renderItem` produces the compact
badge: (a) the badge node — text `toFixed1 score`, background
`tierColor score` — is among the rendered element's descendants for every
element; (b) the badge text is the score rounded to one decimal and the
tier boundaries are `score ≥ 4.0` (high `#10b981`), else `score ≥ 3.0`
(mid `#3b82f6`), else low `#ef4444`; (c) with a truthy reason, an element
in the expanded view gets an inline rationale element; (d) an element
that is neither expanded nor in a detail view (no info row) and holds no
prior rationale node gets none. -/
theorem render_badge_score_tiers :
    (∀ (el : Dom) (it : Item), it.found = true →
      mkBadge it.score ∈ (renderItem el (some it)).descendants) ∧
    (∀ q : Rat,
      badgeText (some q) = toFixed1 q ∧
      (4 ≤ q → tierColor (some q) = "#10b981") ∧
      (3 ≤ q → q < 4 → tierColor (some q) = "#3b82f6") ∧
      (q < 3 → tierColor (some q) = "#ef4444")) ∧
    (∀ (el : Dom) (it : Item) (r : String), it.found = true →
      it.data.bind ItemData.reason = some r → r ≠ "" →
      el.hasClass "entry--selected" = true →
      ∃ m ∈ (renderItem el (some it)).descendants, selReasonText m = true) ∧
    (∀ (el : Dom) (it : Item), it.found = true →
      el.hasClass "entry--selected" = false →
      el.hasClass "entry--expanded" = false →
      (∀ m ∈ el.descendants, selEntryInfo m = false) →
      (∀ m ∈ el.descendants, selReasonText m = false) →
      ∀ m ∈ (renderItem el (some it)).descendants, selReasonText m = false)
    := by
  refine ⟨?_, ?_, ?_, ?_⟩
  · -- (a) the badge is always rendered
    intro el it hf
    simp only [renderItem, renderItemCore, hf, if_true, renderFound]
    apply mem_desc_stageRelated _ _ _ _
      (mkBadge_free it.score selContentBody rfl)
    apply mem_desc_stageBtn _ _ (mkBadge_free it.score selContainer rfl)
    apply mem_desc_stageHeader _ _ _ _ _
      (mkBadge_free it.score selContentBody rfl)
    apply mem_desc_stageReason _ _ _ _ _
      (mkBadge_free it.score selContainer rfl)
    exact mem_desc_appendIntoFirst_self _ _ _ (container_after_clear el)
  · -- (b) text and tier boundaries
    intro q
    refine ⟨rfl, ?_, ?_, ?_⟩
    · intro h
      simp [tierColor, jsGeNull, h]
    · intro h3 h4
      simp [tierColor, jsGeNull, h3, not_le.mpr h4]
    · intro h
      simp [tierColor, jsGeNull, not_le.mpr h,
        not_le.mpr (lt_trans h (by norm_num : (3 : Rat) < 4))]
  · -- (c) the rationale element appears in the expanded view
    intro el it r hf hr hrne hsel
    simp only [renderItem, renderItemCore, hf, if_true, renderFound]
    rw [hr]
    rw [stageReason_fires _ _ _ _ (by
        rw [hasClass_el1, hsel]
        simp) hrne (by rw [containerHas_after_badge]; rfl)]
    refine ⟨mkReasonEl r, ?_, rfl⟩
    apply mem_desc_stageRelated _ _ _ _
      (mkReasonEl_free r selContentBody rfl)
    apply mem_desc_stageBtn _ _ (mkReasonEl_free r selContainer rfl)
    apply mem_desc_stageHeader _ _ _ _ _
      (mkReasonEl_free r selContentBody rfl)
    exact mem_desc_appendIntoFirst_self _ _ _ (qselB_el1 el it.score)
  · -- (d) no rationale element outside the expanded/detail views
    intro el it hf hs1 hs2 hInfoFree hReasonFree
    simp only [renderItem, renderItemCore, hf, if_true, renderFound]
    have hfree1 := allnot_desc_ensure el selReasonText selReasonText_shape
      (newContainer_free selReasonText rfl) hReasonFree
    have hfree2 := allnot_desc_clearFirst selContainer _ selReasonText
      selReasonText_shape hfree1
    have hfree3 := allnot_desc_appendIntoFirst selContainer (mkBadge it.score)
      _ selReasonText selReasonText_shape
      (mkBadge_free it.score selReasonText rfl) hfree2
    have hinfo1 := allnot_desc_ensure el selEntryInfo selEntryInfo_shape
      (newContainer_free selEntryInfo rfl) hInfoFree
    have hinfo2 := allnot_desc_clearFirst selContainer _ selEntryInfo
      selEntryInfo_shape hinfo1
    have hinfo3 := allnot_desc_appendIntoFirst selContainer (mkBadge it.score)
      _ selEntryInfo selEntryInfo_shape
      (mkBadge_free it.score selEntryInfo rfl) hinfo2
    have hI : (appendIntoFirst selContainer (mkBadge it.score)
        (clearFirst selContainer (ensureBadgeContainer el))).qselB
          selEntryInfo = false := qselB_false_of_allnot hinfo3
    have hE1 : (appendIntoFirst selContainer (mkBadge it.score)
        (clearFirst selContainer (ensureBadgeContainer el))).hasClass
          "entry--selected" = false := by rw [hasClass_el1]; exact hs1
    have hE2 : (appendIntoFirst selContainer (mkBadge it.score)
        (clearFirst selContainer (ensureBadgeContainer el))).hasClass
          "entry--expanded" = false := by rw [hasClass_el1]; exact hs2
    rw [stageReason_noop _ _ _ _ hI (by rw [hE1, hE2]; rfl),
      stageHeader_noop _ _ _ _ hI (by rw [hE1, hE2]; rfl),
      stageRelated_noop _ _ _ hI (by rw [hE1, hE2]; rfl)]
    intro m hm
    unfold stageBtn at hm
    rcases hsp : containerHas (appendIntoFirst selContainer
        (mkBadge it.score) (clearFirst selContainer
          (ensureBadgeContainer el))) selSummaryBtn with _ | _
    · rw [hsp] at hm
      simp only [Bool.not_false, if_true] at hm
      exact allnot_desc_appendIntoFirst selContainer mkSummaryBtn _
        selReasonText selReasonText_shape
        (mkSummaryBtn_free selReasonText rfl rfl) hfree3 m hm
    · rw [hsp] at hm
      simp only [Bool.not_true, if_false] at hm
      exact hfree3 m hm

/-- Witness for `render_badge_score_tiers`: the scenario of the design
document — identity `a1`, score 4.6 — on an expanded entry: the badge
reads `4.6` with the high-tier color, and the rationale element is
present there but absent on a plain list entry. -/
theorem render_badge_score_tiers_witness :
    (verdict46.found = true ∧
      mkBadge verdict46.score
        ∈ (renderItem (expandedEntry "a1") (some verdict46)).descendants) ∧
    (badgeText verdict46.score = "4.6" ∧
      tierColor verdict46.score = "#10b981") ∧
    (∃ m ∈ (renderItem
        (Dom.el "article" [("data-entry-id", "a1")]
          ["Entry", "entry--selected"] [] "" []) (some verdict46)).descendants,
      selReasonText m = true) ∧
    (∀ m ∈ (renderItem (plainEntry "a1") (some verdict46)).descendants,
      selReasonText m = false) := by
  have htext : badgeText verdict46.score = "4.6" := by
    show toFixed1 ((23 : Rat) / 5) = "4.6"
    unfold toFixed1 toFixed1Nat
    rw [if_neg (by norm_num : ¬ ((23 : Rat) / 5 < 0))]
    have h1 : (10 * ((23 : Rat) / 5) + 1 / 2) = 93 / 2 := by norm_num
    rw [h1]
    have h2 : ((93 : Rat) / 2).floor = 46 := by
      have h3 : ((93 : Rat) / 2).floor = ⌊(93 : Rat) / 2⌋ := rfl
      rw [h3]
      norm_num
    rw [h2]
    rfl
  have htier : tierColor verdict46.score = "#10b981" := by
    show tierColor (some ((23 : Rat) / 5)) = "#10b981"
    simp [tierColor, jsGeNull, show (4 : Rat) ≤ 23 / 5 by norm_num]
  refine ⟨⟨rfl, ?_⟩, ⟨htext, htier⟩, ?_, ?_⟩
  · exact render_badge_score_tiers.1 (expandedEntry "a1") verdict46 rfl
  · exact render_badge_score_tiers.2.2.1
      (Dom.el "article" [("data-entry-id", "a1")]
        ["Entry", "entry--selected"] [] "" []) verdict46 "a reason" rfl rfl
      (by decide) (by decide)
  · exact render_badge_score_tiers.2.2.2 (plainEntry "a1") verdict46 rfl
      (by decide) (by decide) (by decide) (by decide)

/-- `prependChildF` keeps the node's subtree `q`-presence. -/
theorem any_pre_prependChildF (x : Dom) (q : Dom → Bool)
    (hq : ∀ t a c s tx tx' ch ch',
      q (.el t a c s tx ch) = q (.el t a c s tx' ch')) (n : Dom) :
    (preorderList [n]).any q = true →
      (preorderList [prependChildF x n]).any q = true := by
  intro h
  cases n with
  | el t a c s tx ch =>
    rw [show (prependChildF x (Dom.el t a c s tx ch))
        = Dom.el t a c s tx (x :: ch) from rfl]
    rw [preorderList_single] at h ⊢
    simp only [List.any_cons, Dom.children] at h ⊢
    rw [preorderList_cons_eq, List.any_append]
    rcases Bool.or_eq_true_iff.mp h with hh | hc
    · refine Bool.or_eq_true_iff.mpr (Or.inl ?_)
      rw [hq t a c s tx tx (x :: ch) ch]
      exact hh
    · exact Bool.or_eq_true_iff.mpr (Or.inr
        (Bool.or_eq_true_iff.mpr (Or.inr hc)))

/-- Some `q`-node survives `prependIntoFirst` (for class-like `q`). -/
theorem any_desc_prependIntoFirst (p : Dom → Bool) (x root : Dom)
    (q : Dom → Bool)
    (hq : ∀ t a c s tx tx' ch ch',
      q (.el t a c s tx ch) = q (.el t a c s tx' ch'))
    (h : root.descendants.any q = true) :
    (prependIntoFirst p x root).descendants.any q = true := by
  rw [Dom.descendants, prependIntoFirst, children_rewriteBelow]
  exact any_pres_modifyFirst p (prependChildF x) q hq
    (fun n hn => any_pre_prependChildF x q hq n hn) root.children h

theorem any_desc_stageReason (el1 : Dom) (hI hE : Bool)
    (rr : Option String) (q : Dom → Bool)
    (hq : ∀ t a c s tx tx' ch ch',
      q (.el t a c s tx ch) = q (.el t a c s tx' ch'))
    (h : el1.descendants.any q = true) :
    (stageReason el1 hI hE rr).descendants.any q = true := by
  unfold stageReason
  split
  · exact any_desc_appendIntoFirst _ _ _ _ hq h
  · exact h

theorem any_desc_stageHeader (el2 : Dom) (hI hE : Bool) (sc : String)
    (q : Dom → Bool)
    (hq : ∀ t a c s tx tx' ch ch',
      q (.el t a c s tx ch) = q (.el t a c s tx' ch'))
    (h : el2.descendants.any q = true) :
    (stageHeader el2 hI hE sc).descendants.any q = true := by
  unfold stageHeader
  split
  · split
    · split
      · exact any_desc_prependIntoFirst _ _ _ _ hq h
      · exact h
    · exact h
  · exact h

theorem any_desc_stageRelated (el4 : Dom) (hI hE : Bool) (q : Dom → Bool)
    (hq : ∀ t a c s tx tx' ch ch',
      q (.el t a c s tx ch) = q (.el t a c s tx' ch'))
    (h : el4.descendants.any q = true) :
    (stageRelated el4 hI hE).1.descendants.any q = true := by
  unfold stageRelated
  split
  · split
    · split
      · exact any_desc_appendIntoFirst _ _ _ _ hq h
      · exact h
    · exact h
  · exact h

/-- A hit inside the container is a hit among the root's descendants. -/
theorem containerHas_to_any {x : Dom} {q : Dom → Bool}
    (h : containerHas x q = true) : x.descendants.any q = true := by
  unfold containerHas at h
  rcases ho : x.qsel selContainer with _ | c
  · rw [ho] at h
    simp at h
  · rw [ho] at h
    have hc : c ∈ x.descendants := by
      have := List.mem_of_find?_eq_some (p := selContainer)
        (by rw [← qsel_eq_find?, ho] : _)
      exact this
    have hcq : c.descendants.any q = true := by
      rw [show c.descendants.any q = c.qselB q from (qselB_eq_any c q).symm]
      simpa using h
    rcases List.any_eq_true.mp hcq with ⟨m, hm, hqm⟩
    refine List.any_eq_true.mpr ⟨m, ?_, hqm⟩
    exact mem_pre_trans m x.children c hc hm

/-- The identity resolver succeeds outright on a truthy own
`data-entry-id` attribute. -/
theorem getEntryId_isOk_of_truthy (d : Dom)
    (h : truthyS (d.getAttr "data-entry-id") = true) :
    (getEntryId d).isOk = true := by
  unfold getEntryId
  simp [jsOrS, h, Except.isOk, Except.toBool]

theorem getAttr_of_attrs_eq {d d' : Dom} (h : d.attrs = d'.attrs)
    (n : String) : d.getAttr n = d'.getAttr n := by
  unfold Dom.getAttr
  rw [h]

/-- The root's attributes survive the whole found-verdict pipeline. -/
theorem attrs_el1 (el : Dom) (s : Option Rat) :
    (appendIntoFirst selContainer (mkBadge s)
      (clearFirst selContainer (ensureBadgeContainer el))).attrs
      = el.attrs := by
  rw [appendIntoFirst, attrs_rewriteBelow, clearFirst, attrs_rewriteBelow,
    attrs_ensure]

/-- Whatever the container held before, after the summary-button stage
and the related-articles stage some summary button is present. -/
theorem summaryBtn_exists_after (x : Dom) (hI hE : Bool)
    (hcont : x.qselB selContainer = true) :
    ∃ m ∈ (stageRelated (stageBtn x) hI hE).1.descendants,
      selSummaryBtn m = true := by
  by_cases hb : containerHas x selSummaryBtn = true
  · have hx : x.descendants.any selSummaryBtn = true := containerHas_to_any hb
    have hbtnstage : stageBtn x = x := by simp [stageBtn, hb]
    rw [hbtnstage]
    have := any_desc_stageRelated x hI hE selSummaryBtn
      (fun t a c s tx tx' ch ch' => rfl) hx
    rcases List.any_eq_true.mp this with ⟨m, hm, hq⟩
    exact ⟨m, hm, hq⟩
  · have hb' : containerHas x selSummaryBtn = false := by simpa using hb
    have hbtnstage : stageBtn x = appendIntoFirst selContainer mkSummaryBtn x
      := by simp [stageBtn, hb']
    rw [hbtnstage]
    refine ⟨mkSummaryBtn, ?_, rfl⟩
    apply mem_desc_stageRelated _ _ _ _
      (mkSummaryBtn_free selContentBody rfl rfl)
    exact mem_desc_appendIntoFirst_self _ _ _ hcont

/-- The related-articles stage cannot throw when the element's own
`data-entry-id` attribute is truthy: the resolver returns it at once. -/
theorem stageRelated_snd_false (el4 : Dom) (hI hE : Bool)
    (h : truthyS (el4.getAttr "data-entry-id") = true) :
    (stageRelated el4 hI hE).2 = false := by
  unfold stageRelated
  split
  · split
    · split
      · show (!(getEntryId (appendIntoFirst selContentBody mkLoadingDiv
            el4)).isOk) = false
        have hattr : (appendIntoFirst selContentBody mkLoadingDiv el4).attrs
            = el4.attrs := by rw [appendIntoFirst, attrs_rewriteBelow]
        have ht : truthyS ((appendIntoFirst selContentBody mkLoadingDiv
            el4).getAttr "data-entry-id") = true := by
          rw [getAttr_of_attrs_eq hattr]
          exact h
        rw [getEntryId_isOk_of_truthy _ ht]
        rfl
      · rfl
    · rfl
  · rfl

/-- Any element whose badge-stage input contains the container still
exposes the container after the reason and header stages. -/
theorem qselB_container_stages (el1 : Dom) (hI hE : Bool)
    (rr : Option String) (sc : String)
    (h : el1.descendants.any selContainer = true) :
    (stageHeader (stageReason el1 hI hE rr) hI hE sc).qselB selContainer
      = true := by
  rw [qselB_eq_any]
  exact any_desc_stageHeader _ _ _ _ selContainer
    (fun t a c s tx tx' ch ch' => rfl)
    (any_desc_stageReason _ _ _ _ selContainer
      (fun t a c s tx tx' ch ch' => rfl) h)

/-- **C10 counterexample** The original claim's "the function does not
throw" is false: a found verdict with `null` score still throws when the
entry is in the expanded view, its `data-entry-id` is falsy, and its
permalink carries a malformed percent escape — the related-articles
block runs `getEntryId`, whose `decodeURIComponent` raises `URIError`
(score-independent, so the `null` score does not prevent it). -/
theorem render_null_score_throws_counterexample :
    renderItemThrows
      (Dom.el "article" [("data-entry-id", "")]
        ["Entry", "entry--selected"] [] ""
        [Dom.el "a" [("href", "/entry/%zz")] ["EntryTitleLink"] [] "t" [],
          Dom.el "div" [] ["EntryBody"] [] "" []])
      (some ⟨"x", true, none, none⟩) = true := by
  decide

/-- **C10 (amended)** With a found verdict whose score is `null`: the
badge is still rendered but its text is the empty string, not a rounded
number (`score?.toFixed(1)` yields `undefined`, which the nullable
`textContent` setter converts via `null` to `""`); both tier comparisons
`null >= 4.0` and `null >= 3.0` are false, so the badge gets the lowest
tier color `#ef4444`; the summary button is still attached; and on a
resolvable element (truthy `data-entry-id`, so the identity probe
returns before the throwing permalink decode) `renderItem` does not
throw — unconditional no-throw is refuted by the counterexample. -/
theorem render_null_score_verdict :
    (badgeText none = "" ∧ tierColor none = "#ef4444" ∧
      jsGeNull none 4 = false ∧ jsGeNull none 3 = false) ∧
    (∀ (el : Dom) (it : Item), it.found = true → it.score = none →
      mkBadge none ∈ (renderItem el (some it)).descendants) ∧
    (∀ (el : Dom) (it : Item), it.found = true →
      ∃ m ∈ (renderItem el (some it)).descendants,
        selSummaryBtn m = true) ∧
    (∀ (el : Dom) (it : Item),
      truthyS (el.getAttr "data-entry-id") = true →
      renderItemThrows el (some it) = false) := by
  have h40 : jsGeNull none 4 = false := by
    simp [jsGeNull, show ¬((4 : Rat) ≤ 0) by norm_num]
  have h30 : jsGeNull none 3 = false := by
    simp [jsGeNull, show ¬((3 : Rat) ≤ 0) by norm_num]
  refine ⟨⟨rfl, ?_, h40, h30⟩, ?_, ?_, ?_⟩
  · simp [tierColor, h40, h30]
  · intro el it hf hs
    have hmem : mkBadge it.score ∈ (renderItem el (some it)).descendants := by
      simp only [renderItem, renderItemCore, hf, if_true, renderFound]
      apply mem_desc_stageRelated _ _ _ _
        (mkBadge_free it.score selContentBody rfl)
      apply mem_desc_stageBtn _ _ (mkBadge_free it.score selContainer rfl)
      apply mem_desc_stageHeader _ _ _ _ _
        (mkBadge_free it.score selContentBody rfl)
      apply mem_desc_stageReason _ _ _ _ _
        (mkBadge_free it.score selContainer rfl)
      exact mem_desc_appendIntoFirst_self _ _ _ (container_after_clear el)
    rwa [hs] at hmem
  · intro el it hf
    simp only [renderItem, renderItemCore, hf, if_true, renderFound]
    apply summaryBtn_exists_after
    apply qselB_container_stages
    have h1 := qselB_el1 el it.score
    rwa [qselB_eq_any] at h1
  · intro el it h
    cases hf : it.found with
    | false => simp [renderItemThrows, renderItemCore, hf]
    | true =>
      simp only [renderItemThrows, renderItemCore, hf, if_true, renderFound]
      apply stageRelated_snd_false
      rw [getAttr_of_attrs_eq (show (stageBtn (stageHeader (stageReason
          (appendIntoFirst selContainer (mkBadge it.score)
            (clearFirst selContainer (ensureBadgeContainer el)))
          _ _ (it.data.bind ItemData.reason)) _ _
          (jsDefault (it.data.bind ItemData.summary) "无详细总结"))).attrs
          = el.attrs by
        rw [attrs_stageBtn, attrs_stageHeader, attrs_stageReason, attrs_el1])]
      exact h

/-- Witness for `render_null_score_verdict`: a found verdict with `null`
score on a plain entry. -/
theorem render_null_score_verdict_witness :
    (mkBadge none
      ∈ (renderItem (plainEntry "a9")
          (some ⟨"a9", true, none, none⟩)).descendants) ∧
    (∃ m ∈ (renderItem (plainEntry "a9")
        (some ⟨"a9", true, none, none⟩)).descendants,
      selSummaryBtn m = true) ∧
    renderItemThrows (plainEntry "a9") (some ⟨"a9", true, none, none⟩)
      = false :=
  ⟨render_null_score_verdict.2.1 (plainEntry "a9") ⟨"a9", true, none, none⟩
      rfl rfl,
    render_null_score_verdict.2.2.1 (plainEntry "a9")
      ⟨"a9", true, none, none⟩ rfl,
    render_null_score_verdict.2.2.2 (plainEntry "a9")
      ⟨"a9", true, none, none⟩ (by decide)⟩

/-- **C5 counterexample** In the expanded view the claim is false: the
related-articles loading block carries neither of the two marker classes
the guard checks (`ai-related-articles-section` /
`ai-related-articles-results`) and lives outside the cleared container,
so a second `renderItem` with the same (node, verdict) pair appends a
duplicate copy and the element count grows from 14 to 17. -/
theorem render_not_idempotent_expanded :
    countElems (renderItem (expandedEntry "a3") (some verdict46)) = 14 ∧
    countElems (renderItem (renderItem (expandedEntry "a3")
        (some verdict46)) (some verdict46)) = 17 := by
  constructor <;> decide

theorem selContainer_shape (t : String) (a : List (String × String))
    (c : List String) (s : List (String × String)) (x x' : String)
    (ch ch' : List Dom) :
    selContainer (.el t a c s x ch) = selContainer (.el t a c s x' ch') :=
  rfl

/-- Composing two first-match rewrites at the same selector: when the
first rewrite neither moves the match (`hpg`) nor survives the second
(`hfg`), rewriting the rewritten forest equals rewriting the original. -/
theorem modifyFirst_after (p : Dom → Bool) (f g : Dom → Dom)
    (hq : ∀ t a c s x x' ch ch',
      p (.el t a c s x ch) = p (.el t a c s x' ch'))
    (hpg : ∀ d, p (g d) = p d)
    (hfg : ∀ d, f (g d) = f d) :
    ∀ ds : List Dom,
      modifyFirst p f (modifyFirst p g ds).1 = modifyFirst p f ds
  | [] => by simp [modifyFirst]
  | .el t a c s x ch :: ds => by
      have ih1 := modifyFirst_after p f g hq hpg hfg ch
      have ih2 := modifyFirst_after p f g hq hpg hfg ds
      cases hp : p (.el t a c s x ch) with
      | true => simp [modifyFirst, hp, hpg, hfg]
      | false =>
        rcases hm : modifyFirst p g ch with ⟨ch1, fl⟩
        have hflf : (modifyFirst p f ch).2 = fl := by
          rw [modifyFirst_snd p f ch, ← modifyFirst_snd p g ch, hm]
        cases fl with
        | true =>
            have hch1 : modifyFirst p f ch1 = modifyFirst p f ch := by
              have h0 := ih1
              rw [hm] at h0
              exact h0
            have hpd : p (.el t a c s x ch1) = false := by
              rw [hq t a c s x x ch1 ch]
              exact hp
            rcases hf2 : modifyFirst p f ch with ⟨ch2, fl2⟩
            have hfl2 : fl2 = true := by
              rw [hf2] at hflf
              exact hflf
            subst hfl2
            simp [modifyFirst, modifyInto, hp, hm, hpd, hch1, hf2]
        | false =>
            rcases hds : modifyFirst p g ds with ⟨ds1, b⟩
            have hds1 : modifyFirst p f ds1 = modifyFirst p f ds := by
              have h0 := ih2
              rw [hds] at h0
              exact h0
            rcases hf2 : modifyFirst p f ch with ⟨ch2, fl2⟩
            have hfl2 : fl2 = false := by
              rw [hf2] at hflf
              exact hflf
            subst hfl2
            simp [modifyFirst, modifyInto, hp, hm, hds, hf2, hds1]

/-- Clearing the first `p`-container absorbs a preceding append into it. -/
theorem clearFirst_after_append (p : Dom → Bool) (nw X : Dom)
    (hq : ∀ t a c s x x' ch ch',
      p (.el t a c s x ch) = p (.el t a c s x' ch')) :
    clearFirst p (appendIntoFirst p nw X) = clearFirst p X := by
  rcases X with ⟨t, a, c, s, x, ch⟩
  simp only [clearFirst, appendIntoFirst, Dom.rewriteBelow]
  rw [modifyFirst_after p clearF (appendChildF nw) hq
    (fun d => by
      rcases d with ⟨t1, a1, c1, s1, x1, ch1⟩
      exact hq t1 a1 c1 s1 x1 x1 (ch1 ++ [nw]) ch1)
    (fun d => by rcases d with ⟨t1, a1, c1, s1, x1, ch1⟩; rfl) ch]

/-- Clearing the first `p`-container is idempotent. -/
theorem clearFirst_after_clear (p : Dom → Bool) (X : Dom)
    (hq : ∀ t a c s x x' ch ch',
      p (.el t a c s x ch) = p (.el t a c s x' ch')) :
    clearFirst p (clearFirst p X) = clearFirst p X := by
  rcases X with ⟨t, a, c, s, x, ch⟩
  simp only [clearFirst, Dom.rewriteBelow]
  rw [modifyFirst_after p clearF clearF hq
    (fun d => by
      rcases d with ⟨t1, a1, c1, s1, x1, ch1⟩
      exact hq t1 a1 c1 s1 "" x1 [] ch1)
    (fun d => by rcases d with ⟨t1, a1, c1, s1, x1, ch1⟩; rfl) ch]

/-- When the container already exists, `ensureBadgeContainer` returns
the element unchanged (the source's first early return). -/
theorem ensure_noop (X : Dom) (h : X.qselB selContainer = true) :
    ensureBadgeContainer X = X := by
  simp [ensureBadgeContainer, h]

/-- A first-match append preserves any class-shaped `querySelector` hit. -/
theorem qselB_pres_appendInto (p : Dom → Bool) (x X : Dom) (q : Dom → Bool)
    (hq : ∀ t a c s tx tx' ch ch',
      q (.el t a c s tx ch) = q (.el t a c s tx' ch'))
    (h : X.qselB q = true) :
    (appendIntoFirst p x X).qselB q = true := by
  have h1 : X.descendants.any q = true := by
    rw [Dom.descendants, ← qselB_eq_any]
    exact h
  have h2 := any_desc_appendIntoFirst p x X q hq h1
  rw [qselB_eq_any]
  rw [Dom.descendants] at h2
  exact h2

/-- A second render's container clear undoes one append over the first
render's clear. -/
theorem clear_cycle_one (E b1 : Dom) :
    clearFirst selContainer (appendIntoFirst selContainer b1
        (clearFirst selContainer (ensureBadgeContainer E)))
      = clearFirst selContainer (ensureBadgeContainer E) := by
  rw [clearFirst_after_append selContainer b1 _ selContainer_shape,
      clearFirst_after_clear selContainer _ selContainer_shape]

/-- A second render's container clear undoes two appends over the first
render's clear. -/
theorem clear_cycle_two (E b1 b2 : Dom) :
    clearFirst selContainer (appendIntoFirst selContainer b2
        (appendIntoFirst selContainer b1
          (clearFirst selContainer (ensureBadgeContainer E))))
      = clearFirst selContainer (ensureBadgeContainer E) := by
  rw [clearFirst_after_append selContainer b2 _ selContainer_shape,
      clearFirst_after_append selContainer b1 _ selContainer_shape,
      clearFirst_after_clear selContainer _ selContainer_shape]

/-- Outside the expanded/detail view (no info row, no expanded class) the
found arm collapses to badge plus summary button, with no exception. -/
theorem renderFound_collapsed (el0 : Dom) (it : Item)
    (hI0 : (appendIntoFirst selContainer (mkBadge it.score) el0).qselB
      selEntryInfo = false)
    (hSel : (appendIntoFirst selContainer (mkBadge it.score) el0).hasClass
      "entry--selected" = false)
    (hExp : (appendIntoFirst selContainer (mkBadge it.score) el0).hasClass
      "entry--expanded" = false)
    (hBtn : containerHas (appendIntoFirst selContainer (mkBadge it.score) el0)
      selSummaryBtn = false) :
    renderFound el0 it
      = (appendIntoFirst selContainer mkSummaryBtn
          (appendIntoFirst selContainer (mkBadge it.score) el0), false) := by
  have hE : ((appendIntoFirst selContainer (mkBadge it.score) el0).hasClass
      "entry--selected"
      || (appendIntoFirst selContainer (mkBadge it.score) el0).hasClass
      "entry--expanded") = false := by
    rw [hSel, hExp]
    rfl
  have hb : stageBtn (appendIntoFirst selContainer (mkBadge it.score) el0)
      = appendIntoFirst selContainer mkSummaryBtn
        (appendIntoFirst selContainer (mkBadge it.score) el0) := by
    simp [stageBtn, hBtn]
  simp only [renderFound]
  rw [stageReason_noop _ _ _ _ hI0 hE, stageHeader_noop _ _ _ _ hI0 hE, hb]
  exact stageRelated_noop _ _ _ hI0 hE

/-- Rendering the absent verdict twice is idempotent: the second pass
finds the container, clears it, and re-adds only the analyze button. -/
theorem renderItem_none_idem (E : Dom) :
    renderItem (renderItem E none) none = renderItem E none := by
  have h1 : renderItem E none
      = appendIntoFirst selContainer mkAnalyzeBtn
          (clearFirst selContainer (ensureBadgeContainer E)) := rfl
  have hcont : (appendIntoFirst selContainer mkAnalyzeBtn
      (clearFirst selContainer (ensureBadgeContainer E))).qselB selContainer
      = true :=
    qselB_pres_appendInto _ _ _ selContainer selContainer_shape
      (container_after_clear E)
  calc renderItem (renderItem E none) none
      = renderItem (appendIntoFirst selContainer mkAnalyzeBtn
          (clearFirst selContainer (ensureBadgeContainer E))) none := by
        rw [h1]
    _ = appendIntoFirst selContainer mkAnalyzeBtn
          (clearFirst selContainer (ensureBadgeContainer E)) := by
        simp [renderItem, renderItemCore, ensure_noop _ hcont, clear_cycle_one]
    _ = renderItem E none := h1.symm

/-- Rendering a not-found verdict twice is idempotent, the same way. -/
theorem renderItem_notfound_idem (E : Dom) (it : Item)
    (hf : it.found = false) :
    renderItem (renderItem E (some it)) (some it)
      = renderItem E (some it) := by
  have h1 : renderItem E (some it)
      = appendIntoFirst selContainer mkAnalyzeBtn
          (clearFirst selContainer (ensureBadgeContainer E)) := by
    simp [renderItem, renderItemCore, hf]
  have hcont : (appendIntoFirst selContainer mkAnalyzeBtn
      (clearFirst selContainer (ensureBadgeContainer E))).qselB selContainer
      = true :=
    qselB_pres_appendInto _ _ _ selContainer selContainer_shape
      (container_after_clear E)
  calc renderItem (renderItem E (some it)) (some it)
      = renderItem (appendIntoFirst selContainer mkAnalyzeBtn
          (clearFirst selContainer (ensureBadgeContainer E))) (some it) := by
        rw [h1]
    _ = appendIntoFirst selContainer mkAnalyzeBtn
          (clearFirst selContainer (ensureBadgeContainer E)) := by
        simp [renderItem, renderItemCore, hf, ensure_noop _ hcont,
          clear_cycle_one]
    _ = renderItem E (some it) := h1.symm

/-- Rendering a found verdict twice is idempotent outside the
expanded/detail view. -/
theorem renderItem_found_idem (E : Dom) (it : Item) (hf : it.found = true)
    (hI0 : (appendIntoFirst selContainer (mkBadge it.score)
        (clearFirst selContainer (ensureBadgeContainer E))).qselB
        selEntryInfo = false)
    (hSel : E.hasClass "entry--selected" = false)
    (hExp : E.hasClass "entry--expanded" = false) :
    renderItem (renderItem E (some it)) (some it)
      = renderItem E (some it) := by
  have hSel1 : (appendIntoFirst selContainer (mkBadge it.score)
      (clearFirst selContainer (ensureBadgeContainer E))).hasClass
        "entry--selected" = false := by
    rw [hasClass_el1]
    exact hSel
  have hExp1 : (appendIntoFirst selContainer (mkBadge it.score)
      (clearFirst selContainer (ensureBadgeContainer E))).hasClass
        "entry--expanded" = false := by
    rw [hasClass_el1]
    exact hExp
  have hBtn : containerHas (appendIntoFirst selContainer (mkBadge it.score)
      (clearFirst selContainer (ensureBadgeContainer E))) selSummaryBtn
      = false := by
    rw [containerHas_after_badge]
    rfl
  have hcol := renderFound_collapsed
    (clearFirst selContainer (ensureBadgeContainer E)) it hI0 hSel1 hExp1 hBtn
  have h1 : renderItem E (some it)
      = appendIntoFirst selContainer mkSummaryBtn
          (appendIntoFirst selContainer (mkBadge it.score)
            (clearFirst selContainer (ensureBadgeContainer E))) := by
    simp [renderItem, renderItemCore, hf, hcol]
  have hcont2 : (appendIntoFirst selContainer mkSummaryBtn
      (appendIntoFirst selContainer (mkBadge it.score)
        (clearFirst selContainer (ensureBadgeContainer E)))).qselB
        selContainer = true :=
    qselB_pres_appendInto _ _ _ selContainer selContainer_shape
      (qselB_el1 E it.score)
  calc renderItem (renderItem E (some it)) (some it)
      = renderItem (appendIntoFirst selContainer mkSummaryBtn
          (appendIntoFirst selContainer (mkBadge it.score)
            (clearFirst selContainer (ensureBadgeContainer E)))) (some it) := by
        rw [h1]
    _ = appendIntoFirst selContainer mkSummaryBtn
          (appendIntoFirst selContainer (mkBadge it.score)
            (clearFirst selContainer (ensureBadgeContainer E))) := by
        simp [renderItem, renderItemCore, hf, ensure_noop _ hcont2,
          clear_cycle_two, hcol]
    _ = renderItem E (some it) := h1.symm

theorem mkEntry_not_selected (tO hM hTL hI hB : Bool) (e1 e2 e3 e4 : String) :
    (mkEntry ⟨tO, false, hM, hTL, hI, hB, e1, e2, e3, e4⟩).hasClass
      "entry--selected" = false := by
  cases tO <;> rfl

theorem mkEntry_not_expanded (tO hM hTL hI hB : Bool) (e1 e2 e3 e4 : String) :
    (mkEntry ⟨tO, false, hM, hTL, hI, hB, e1, e2, e3, e4⟩).hasClass
      "entry--expanded" = false := by
  cases tO <;> rfl

/-- Without the info row, no descendant of the generated entry matches
the info-row selector. -/
theorem mkEntry_allnot_info (tO ex hM hTL hB : Bool) (e1 e2 e3 e4 : String) :
    ((mkEntry ⟨tO, ex, hM, hTL, false, hB, e1, e2, e3, e4⟩).descendants).all
      (fun m => !selEntryInfo m) = true := by
  cases hM <;> cases hTL <;> cases hB <;> rfl

theorem allnot_of_all {l : List Dom} {q : Dom → Bool}
    (h : l.all (fun m => !q m) = true) : ∀ m ∈ l, q m = false := by
  intro m hm
  have h2 := List.all_eq_true.mp h m hm
  simpa using h2

/-- **C5 (amended)** Re-render idempotence holds outside the
expanded/detail view: when the entry has no info row and is not
expanded/selected (so the related-articles block, whose loading
indicator carries no marker class, never fires), invoking `renderItem`
twice in succession with the same (node, verdict) pair produces no
duplicate elements — the element count after the second call equals the
count after the first, because the container is cleared before rewriting
and each sub-element outside the container is created only after a
marker-class check finds it absent. -/
theorem render_count_idempotent (p : EntryParams) (item : Option Item)
    (hInfo : p.hasInfo = false) (hExp : p.expanded = false) :
    countElems (renderItem (renderItem (mkEntry p) item) item)
      = countElems (renderItem (mkEntry p) item) := by
  rcases p with ⟨tO, ex, hM, hTL, hI, hB, e1, e2, e3, e4⟩
  obtain rfl : hI = false := hInfo
  obtain rfl : ex = false := hExp
  have hidem : renderItem (renderItem
      (mkEntry ⟨tO, false, hM, hTL, false, hB, e1, e2, e3, e4⟩) item) item
      = renderItem (mkEntry ⟨tO, false, hM, hTL, false, hB, e1, e2, e3, e4⟩)
          item := by
    rcases item with _ | it
    · exact renderItem_none_idem _
    · cases hf : it.found with
      | false => exact renderItem_notfound_idem _ it hf
      | true =>
          have hall := allnot_of_all
            (mkEntry_allnot_info tO false hM hTL hB e1 e2 e3 e4)
          have hi1 := allnot_desc_ensure _ selEntryInfo selEntryInfo_shape
            (newContainer_free selEntryInfo rfl) hall
          have hi2 := allnot_desc_clearFirst selContainer _ selEntryInfo
            selEntryInfo_shape hi1
          have hi3 := allnot_desc_appendIntoFirst selContainer
            (mkBadge it.score) _ selEntryInfo selEntryInfo_shape
            (mkBadge_free it.score selEntryInfo rfl) hi2
          exact renderItem_found_idem _ it hf (qselB_false_of_allnot hi3)
            (mkEntry_not_selected tO hM hTL false hB e1 e2 e3 e4)
            (mkEntry_not_expanded tO hM hTL false hB e1 e2 e3 e4)
  rw [hidem]

/-- Witness for `render_count_idempotent`: a collapsed title-only entry
with a found verdict. -/
theorem render_count_idempotent_witness :
    (⟨true, false, true, false, false, false, "a1", "", "t", ""⟩ :
        EntryParams).hasInfo = false ∧
    (⟨true, false, true, false, false, false, "a1", "", "t", ""⟩ :
        EntryParams).expanded = false ∧
    countElems (renderItem (renderItem
        (mkEntry ⟨true, false, true, false, false, false, "a1", "", "t", ""⟩)
        (some verdict46)) (some verdict46))
      = countElems (renderItem
        (mkEntry ⟨true, false, true, false, false, false, "a1", "", "t", ""⟩)
        (some verdict46)) :=
  ⟨rfl, rfl, render_count_idempotent
    ⟨true, false, true, false, false, false, "a1", "", "t", ""⟩
    (some verdict46) rfl rfl⟩

/-- **C8** The identity resolver tries its probes in exactly the source
order, first match wins: (a) the `data-entry-id`/`data-entryid` attribute
on the node itself; (b) the same attribute on a descendant; (c) the
percent-decoded `/entry/<seg>` path segment of a permalink hyperlink
inside the node (decoding faults propagate as the thrown `URIError`);
(d)/(e) with no permalink match (no link, or a link without the segment)
the generic `data-id` attribute, then the node's own element id with a
trailing `_main` stripped, else the unresolvable `null`; and (f) a node
resolving to `null` is skipped by the scan pass with no state change at
all — in particular nothing is cached for it. -/
theorem getEntryId_probe_order :
    (∀ el : Dom,
      truthyS (jsOrS (el.getAttr "data-entry-id")
        (el.getAttr "data-entryid")) = true →
      getEntryId el = .ok (jsOrS (el.getAttr "data-entry-id")
        (el.getAttr "data-entryid"))) ∧
    (∀ el child : Dom,
      truthyS (jsOrS (el.getAttr "data-entry-id")
        (el.getAttr "data-entryid")) = false →
      el.qsel selHasEntryIdAttr = some child →
      truthyS (jsOrS (child.getAttr "data-entry-id")
        (child.getAttr "data-entryid")) = true →
      getEntryId el = .ok (jsOrS (child.getAttr "data-entry-id")
        (child.getAttr "data-entryid"))) ∧
    (∀ el link : Dom, ∀ seg : String,
      truthyS (jsOrS (el.getAttr "data-entry-id")
        (el.getAttr "data-entryid")) = false →
      (el.qsel selHasEntryIdAttr = none ∨
        ∃ child, el.qsel selHasEntryIdAttr = some child ∧
          truthyS (jsOrS (child.getAttr "data-entry-id")
            (child.getAttr "data-entryid")) = false) →
      el.qsel selEntryLink = some link →
      entryMatch ((link.getAttr "href").getD "") = some seg →
      getEntryId el = (match decodeURIComponent? seg with
        | some dec => .ok (some dec)
        | none => .error ())) ∧
    (∀ el : Dom,
      truthyS (jsOrS (el.getAttr "data-entry-id")
        (el.getAttr "data-entryid")) = false →
      (el.qsel selHasEntryIdAttr = none ∨
        ∃ child, el.qsel selHasEntryIdAttr = some child ∧
          truthyS (jsOrS (child.getAttr "data-entry-id")
            (child.getAttr "data-entryid")) = false) →
      el.qsel selEntryLink = none →
      getEntryId el = .ok (getEntryIdTail el)) ∧
    (∀ el link : Dom,
      truthyS (jsOrS (el.getAttr "data-entry-id")
        (el.getAttr "data-entryid")) = false →
      (el.qsel selHasEntryIdAttr = none ∨
        ∃ child, el.qsel selHasEntryIdAttr = some child ∧
          truthyS (jsOrS (child.getAttr "data-entry-id")
            (child.getAttr "data-entryid")) = false) →
      el.qsel selEntryLink = some link →
      entryMatch ((link.getAttr "href").getD "") = none →
      getEntryId el = .ok (getEntryIdTail el)) ∧
    (∀ el : Dom, truthyS (el.getAttr "data-id") = true →
      getEntryIdTail el = el.getAttr "data-id") ∧
    (∀ el : Dom, truthyS (el.getAttr "data-id") = false →
      truthyS (el.getAttr "id") = true →
      getEntryIdTail el
        = some (stripMainSuffix ((el.getAttr "id").getD ""))) ∧
    (∀ el : Dom, truthyS (el.getAttr "data-id") = false →
      truthyS (el.getAttr "id") = false → getEntryIdTail el = none) ∧
    (∀ (origin : String) (e : Dom) (es : List Dom) (st : CState),
      getEntryId e = .ok none →
      scanEntriesRun origin (e :: es) st = scanEntriesRun origin es st) := by
  refine ⟨?_, ?_, ?_, ?_, ?_, ?_, ?_, ?_, ?_⟩
  · intro el h
    simp [getEntryId, h]
  · intro el child h1 h2 h3
    simp [getEntryId, h1, h2, h3]
  · intro el link seg h1 hch h3 h4
    rcases hch with hch | ⟨child, hc1, hc2⟩
    · simp [getEntryId, h1, hch, h3, h4]
    · simp [getEntryId, h1, hc1, hc2, h3, h4]
  · intro el h1 hch h3
    rcases hch with hch | ⟨child, hc1, hc2⟩
    · simp [getEntryId, h1, hch, h3]
    · simp [getEntryId, h1, hc1, hc2, h3]
  · intro el link h1 hch h3 h4
    rcases hch with hch | ⟨child, hc1, hc2⟩
    · simp [getEntryId, h1, hch, h3, h4]
    · simp [getEntryId, h1, hc1, hc2, h3, h4]
  · intro el h
    simp [getEntryIdTail, h]
  · intro el h1 h2
    simp [getEntryIdTail, h1, h2]
  · intro el h1 h2
    simp [getEntryIdTail, h1, h2]
  · intro origin e es st h
    simp [scanEntriesRun, scanFold, h, truthyS]

/-- Witness for `getEntryId_probe_order`: probe (a) fires on an entry
carrying its own `data-entry-id`, and a node resolving to `null` is
skipped by the scan with no state change. -/
theorem getEntryId_probe_order_witness :
    (getEntryId (Dom.el "article" [("data-entry-id", "a1")] ["Entry"]
        [] "" []) = .ok (some "a1")) ∧
    scanEntriesRun "o" [Dom.el "div" [] [] [] "" []] ⟨[], []⟩
      = scanEntriesRun "o" [] ⟨[], []⟩ :=
  ⟨(getEntryId_probe_order.1
      (Dom.el "article" [("data-entry-id", "a1")] ["Entry"] [] "" [])
      (by decide)).trans rfl,
    getEntryId_probe_order.2.2.2.2.2.2.2.2 "o"
      (Dom.el "div" [] [] [] "" []) [] ⟨[], []⟩ rfl⟩

/-! ### JS `Map` lemmas for the pending/in-flight analysis -/

theorem mapHas_iff {A : Type} (m : List (String × A)) (k : String) :
    mapHas m k = true ↔ k ∈ m.map (·.1) := by
  rw [mapHas, List.find?_isSome]
  constructor
  · rintro ⟨x, hx, hpx⟩
    rw [beq_iff_eq] at hpx
    exact hpx ▸ List.mem_map_of_mem (·.1) hx
  · intro hk
    rcases List.mem_map.mp hk with ⟨x, hx, hxk⟩
    exact ⟨x, hx, by rw [beq_iff_eq]; exact hxk⟩

theorem mapHas_append {A : Type} (a b : List (String × A)) (k : String) :
    mapHas (a ++ b) k = (mapHas a k || mapHas b k) := by
  induction a with
  | nil => simp [mapHas]
  | cons p rest ih =>
      rcases hpk : (p.1 == k) with _ | _
      · simpa [mapHas, List.find?, hpk] using ih
      · simp [mapHas, List.find?, hpk]

theorem mapSet_fresh {A : Type} (m : List (String × A)) (k : String) (v : A)
    (h : mapHas m k = false) : mapSet m k v = m ++ [(k, v)] := by
  induction m with
  | nil => rfl
  | cons p rest ih =>
      rcases hpk : (p.1 == k) with _ | _
      · have h' : mapHas rest k = false := by
          simpa [mapHas, List.find?, hpk] using h
        simp [mapSet, hpk, ih h']
      · exfalso
        simp [mapHas, List.find?, hpk] at h

theorem mapGet_mapSet_other {A : Type} (m : List (String × A))
    (j k : String) (v : A) (h : j ≠ k) :
    mapGet (mapSet m j v) k = mapGet m k := by
  have hjk : (j == k) = false := by simpa using h
  induction m with
  | nil => simp [mapSet, mapGet, List.find?, hjk]
  | cons p rest ih =>
      rcases hpj : (p.1 == j) with _ | _
      · simp only [mapSet, hpj, if_false]
        rcases hpk : (p.1 == k) with _ | _
        · simpa [mapGet, List.find?, hpk] using ih
        · simp [mapGet, List.find?, hpk]
      · have hp1 : p.1 = j := by simpa using hpj
        simp [mapSet, hpj, mapGet, List.find?, hp1, hjk]

theorem mapHas_mapDelete_self {A : Type} (m : List (String × A))
    (k : String) : mapHas (mapDelete m k) k = false := by
  rcases hf : (mapDelete m k).find? (fun p => p.1 == k) with _ | p
  · simp [mapHas, hf]
  · exfalso
    have h1 := List.find?_some hf
    have h2 : p ∈ mapDelete m k := List.mem_of_find?_eq_some hf
    rw [mapDelete] at h2
    have h3 := List.of_mem_filter h2
    simp only [beq_iff_eq] at h1
    simp [bne, h1] at h3

theorem mapDelete_keys {A : Type} (m : List (String × A)) (k : String) :
    (mapDelete m k).map (·.1) = (m.map (·.1)).filter (fun x => x != k) := by
  induction m with
  | nil => rfl
  | cons p rest ih =>
      rw [mapDelete] at ih ⊢
      rw [List.filter_cons, List.map_cons, List.filter_cons]
      rcases hpk : (p.1 != k) with _ | _
      · simp [hpk, ih]
      · simp [hpk, ih]

theorem mapDelete_keys_sublist {A : Type} (m : List (String × A))
    (k : String) :
    List.Sublist ((mapDelete m k).map (·.1)) (m.map (·.1)) :=
  List.Sublist.map _ (List.filter_sublist m)

theorem mapHas_mapDelete_of_not {A : Type} (m : List (String × A))
    (j k : String) (h : mapHas m k = false) :
    mapHas (mapDelete m j) k = false := by
  rcases hf : (mapDelete m j).find? (fun p => p.1 == k) with _ | p
  · simp [mapHas, hf]
  · exfalso
    have h2 : p ∈ mapDelete m j := List.mem_of_find?_eq_some hf
    rw [mapDelete] at h2
    have h3 : p ∈ m := List.mem_of_mem_filter h2
    have h4 := List.find?_some hf
    have h5 : k ∈ m.map (·.1) := by
      simp only [beq_iff_eq] at h4
      exact h4 ▸ List.mem_map_of_mem (·.1) h3
    rw [← mapHas_iff] at h5
    rw [h5] at h
    exact absurd h (by simp)

theorem mem_keys_mapDelete {A : Type} (m : List (String × A)) (j k : String)
    (hmem : k ∈ m.map (·.1)) (hne : k ≠ j) :
    k ∈ (mapDelete m j).map (·.1) := by
  rw [mapDelete_keys]
  exact List.mem_filter.mpr ⟨hmem, by simpa [bne] using hne⟩

/-! ### The failure handler releases the batch -/

theorem releaseBatch_keys_sublist :
    ∀ (fis : List FetchItem) (p : List (String × Dom)),
      List.Sublist ((releaseBatch fis p).map (·.1)) (p.map (·.1))
  | [], p => List.Sublist.refl _
  | fi :: rest, p =>
      (releaseBatch_keys_sublist rest (mapDelete p fi.id)).trans
        (mapDelete_keys_sublist p fi.id)

theorem releaseBatch_pres_not :
    ∀ (fis : List FetchItem) (p : List (String × Dom)) (k : String),
      mapHas p k = false → mapHas (releaseBatch fis p) k = false
  | [], _, _, h => h
  | fi :: rest, p, k, h =>
      releaseBatch_pres_not rest (mapDelete p fi.id) k
        (mapHas_mapDelete_of_not p fi.id k h)

theorem releaseBatch_not_has :
    ∀ (fis : List FetchItem) (p : List (String × Dom)),
      ∀ fi ∈ fis, mapHas (releaseBatch fis p) fi.id = false
  | fi0 :: rest, p, fi, hmem => by
      rcases List.mem_cons.mp hmem with rfl | hmem'
      · exact releaseBatch_pres_not rest (mapDelete p fi.id) fi.id
          (mapHas_mapDelete_self p fi.id)
      · exact releaseBatch_not_has rest (mapDelete p fi0.id) fi hmem'

theorem releaseBatch_keeps :
    ∀ (fis : List FetchItem) (p : List (String × Dom)) (k : String),
      k ∈ p.map (·.1) → k ∉ fis.map (·.id) →
      k ∈ (releaseBatch fis p).map (·.1)
  | [], _, _, hmem, _ => hmem
  | fi :: rest, p, k, hmem, hnot => by
      have hne : k ≠ fi.id := by
        intro hk
        exact hnot (by simp [hk])
      have hnot' : k ∉ rest.map (·.id) := by
        intro hk
        exact hnot (by simp [hk])
      exact releaseBatch_keeps rest (mapDelete p fi.id) k
        (mem_keys_mapDelete p fi.id k hmem hne) hnot'

/-! ### The success handler: cache writes, pending release, renders -/

theorem handleScores_pending (fmap : List (String × Dom))
    (resp : Option ScoresResp) :
    ∀ (fis : List FetchItem) (st : CState),
      ((handleScores fmap resp fis st).1).pending
        = releaseBatch fis st.pending
  | [], _ => rfl
  | fi :: rest, st => by
      rcases hg : mapGet (respItemsOf resp) fi.id with _ | item <;>
        simp [handleScores, hg, releaseBatch,
          handleScores_pending fmap resp rest]

theorem handleScores_cache_other (fmap : List (String × Dom))
    (resp : Option ScoresResp) :
    ∀ (fis : List FetchItem) (st : CState) (k : String),
      k ∉ fis.map (·.id) →
      mapGet ((handleScores fmap resp fis st).1).itemCache k
        = mapGet st.itemCache k
  | [], _, _, _ => rfl
  | fi :: rest, st, k, hk => by
      have hne : fi.id ≠ k := by
        intro h
        exact hk (by simp [h])
      have hk' : k ∉ rest.map (·.id) := by
        intro h
        exact hk (by simp [h])
      rcases hg : mapGet (respItemsOf resp) fi.id with _ | item <;>
        simp [handleScores, hg,
          handleScores_cache_other fmap resp rest _ k hk',
          mapGet_mapSet_other _ _ _ _ hne]

theorem handleScores_cache_of_mem (fmap : List (String × Dom))
    (resp : Option ScoresResp) :
    ∀ (fis : List FetchItem) (st : CState) (fi : FetchItem), fi ∈ fis →
      (fis.map (·.id)).Nodup →
      mapGet ((handleScores fmap resp fis st).1).itemCache fi.id
        = (match mapGet (respItemsOf resp) fi.id with
           | some item => some item
           | none => mapGet st.itemCache fi.id)
  | fi0 :: rest, st, fi, hmem, hnd => by
      have hnd' : (rest.map (·.id)).Nodup := (List.nodup_cons.mp hnd).2
      have hfresh : fi0.id ∉ rest.map (·.id) := (List.nodup_cons.mp hnd).1
      rcases List.mem_cons.mp hmem with rfl | hmem'
      · rcases hg : mapGet (respItemsOf resp) fi.id with _ | item
        · simp [handleScores, hg,
            handleScores_cache_other fmap resp rest _ fi.id hfresh]
        · simp [handleScores, hg,
            handleScores_cache_other fmap resp rest _ fi.id hfresh,
            mapGet_mapSet_self]
      · have hne : fi0.id ≠ fi.id := by
          intro h
          exact hfresh (h ▸ List.mem_map_of_mem (·.id) hmem')
        have ih := handleScores_cache_of_mem fmap resp rest
        rcases hg : mapGet (respItemsOf resp) fi0.id with _ | item
        · simp only [handleScores, hg]
          rw [ih _ fi hmem' hnd']
        · simp only [handleScores, hg]
          rw [ih _ fi hmem' hnd']
          rcases hg2 : mapGet (respItemsOf resp) fi.id with _ | item2
          · simp [mapGet_mapSet_other _ _ _ _ hne]
          · rfl

theorem handleScores_renders_mem (fmap : List (String × Dom))
    (resp : Option ScoresResp) :
    ∀ (fis : List FetchItem) (st : CState) (fi : FetchItem) (e : Dom),
      fi ∈ fis → mapGet fmap fi.id = some e →
      (e, mapGet (respItemsOf resp) fi.id) ∈ (handleScores fmap resp fis st).2
  | fi0 :: rest, st, fi, e, hmem, hget => by
      rcases List.mem_cons.mp hmem with rfl | hmem'
      · simp [handleScores, hget, jsOrD]
      · simp only [handleScores]
        refine List.mem_append_right _ ?_
        exact handleScores_renders_mem fmap resp rest _ fi e hmem' hget

/-! ### Specification of one scan pass: the batch it builds is exactly
what it appends to the pending map — fresh, duplicate-free ids -/

theorem extractFetchItem_id (origin id : String) (e : Dom) :
    (extractFetchItem origin id e).id = id := rfl

theorem scanFold_spec (origin : String) :
    ∀ (es : List Dom) (acc : ScanResult),
      ∃ ext : List (String × Dom),
        (scanFold origin es acc).state.pending
            = acc.state.pending ++ ext ∧
        (scanFold origin es acc).items.map (·.id)
            = acc.items.map (·.id) ++ ext.map (·.1) ∧
        (∀ k ∈ ext.map (·.1), mapHas acc.state.pending k = false) ∧
        (ext.map (·.1)).Nodup ∧
        (scanFold origin es acc).state.itemCache = acc.state.itemCache
  | [], acc => ⟨[], by simp [scanFold]⟩
  | e :: rest, acc => by
      cases hge : getEntryId e with
      | error u =>
          refine ⟨[], ?_⟩
          simp [scanFold, hge]
      | ok idOpt =>
        cases ht : truthyS idOpt with
        | false =>
            simp only [scanFold, hge, ht, Bool.not_false, if_true]
            exact scanFold_spec origin rest acc
        | true =>
          rcases hp : mapHas acc.state.pending (idOpt.getD "") with _ | _
          · rcases hb : (e.qselB selBadge || e.qselB selAnalyzeBtn)
                with _ | _
            · -- new id: enqueue and batch
              have he : scanFold origin (e :: rest) acc
                  = scanFold origin rest
                    (⟨⟨mapSet acc.state.pending (idOpt.getD "") e,
                        acc.state.itemCache⟩,
                      acc.items
                        ++ [extractFetchItem origin (idOpt.getD "") e],
                      mapSet acc.fmap (idOpt.getD "") e,
                      acc.renders, acc.aborted⟩ : ScanResult) := by
                simp [scanFold, hge, ht, hp, hb]
              rw [he]
              obtain ⟨ext, h1, h2, h3, h4, h5⟩ := scanFold_spec origin rest
                (⟨⟨mapSet acc.state.pending (idOpt.getD "") e,
                    acc.state.itemCache⟩,
                  acc.items
                    ++ [extractFetchItem origin (idOpt.getD "") e],
                  mapSet acc.fmap (idOpt.getD "") e,
                  acc.renders, acc.aborted⟩ : ScanResult)
              have hset : mapSet acc.state.pending (idOpt.getD "") e
                  = acc.state.pending ++ [(idOpt.getD "", e)] :=
                mapSet_fresh _ _ _ hp
              refine ⟨(idOpt.getD "", e) :: ext, ?_, ?_, ?_, ?_, ?_⟩
              · rw [h1]
                show mapSet acc.state.pending (idOpt.getD "") e ++ ext = _
                rw [hset]
                simp
              · rw [h2]
                show (acc.items
                    ++ [extractFetchItem origin (idOpt.getD "") e]).map (·.id)
                    ++ ext.map (·.1) = _
                simp [extractFetchItem_id]
              · intro k hk
                rcases List.mem_cons.mp hk with rfl | hk'
                · exact hp
                · have h6 : mapHas
                      (acc.state.pending ++ [(idOpt.getD "", e)]) k
                      = false := by
                    rw [← hset]
                    exact h3 k hk'
                  rw [mapHas_append] at h6
                  exact (Bool.or_eq_false_iff.mp h6).1
              · refine List.nodup_cons.mpr ⟨?_, h4⟩
                intro hmem
                have h6 : mapHas (acc.state.pending ++ [(idOpt.getD "", e)])
                    (idOpt.getD "") = false := by
                  rw [← hset]
                  exact h3 _ hmem
                rw [mapHas_append] at h6
                have h7 := (Bool.or_eq_false_iff.mp h6).2
                simp [mapHas, List.find?] at h7
              · rw [h5]
            · -- already badged: renders-only branch
              rcases hc : mapGet acc.state.itemCache (idOpt.getD "")
                  with _ | item
              · simp only [scanFold, hge, ht, Bool.not_true, if_false, hp,
                  hb, hc]
                exact scanFold_spec origin rest acc
              · rcases hr : (item.found &&
                    truthyS (item.data.bind ItemData.reason) &&
                    (e.qselB selEntryInfo && !e.qselB selReasonText))
                    with _ | _
                · simp only [scanFold, hge, ht, Bool.not_true, if_false, hp,
                    hb, hc, hr, if_false]
                  exact scanFold_spec origin rest acc
                · simp only [scanFold, hge, ht, Bool.not_true, if_false, hp,
                    hb, hc, hr, if_true]
                  exact scanFold_spec origin rest
                    { acc with renders := acc.renders ++ [(e, item)] }
          · -- pending: skipped
            simp only [scanFold, hge, ht, Bool.not_true, if_false, hp,
              if_true]
            exact scanFold_spec origin rest acc

theorem fastFold_spec (origin : String) :
    ∀ (es : List Dom) (acc : ScanResult),
      ∃ ext : List (String × Dom),
        (fastFold origin es acc).state.pending
            = acc.state.pending ++ ext ∧
        (fastFold origin es acc).items.map (·.id)
            = acc.items.map (·.id) ++ ext.map (·.1) ∧
        (∀ k ∈ ext.map (·.1), mapHas acc.state.pending k = false) ∧
        (ext.map (·.1)).Nodup ∧
        (fastFold origin es acc).state.itemCache = acc.state.itemCache
  | [], acc => ⟨[], by simp [fastFold]⟩
  | e :: rest, acc => by
      rcases hb : (e.qselB selBadge || e.qselB selAnalyzeBtn) with _ | _
      · cases hge : getEntryId e with
        | error u =>
            refine ⟨[], ?_⟩
            simp [fastFold, hb, hge]
        | ok idOpt =>
          cases ht : truthyS idOpt with
          | false =>
              simp only [fastFold, hb, if_false, hge, ht, Bool.not_false,
                if_true]
              exact fastFold_spec origin rest acc
          | true =>
            rcases hc : mapGet acc.state.itemCache (idOpt.getD "")
                with _ | cached
            · rcases hp : mapHas acc.state.pending (idOpt.getD "")
                  with _ | _
              · -- new id: enqueue and batch
                have he : fastFold origin (e :: rest) acc
                    = fastFold origin rest
                      (⟨⟨mapSet acc.state.pending (idOpt.getD "") e,
                          acc.state.itemCache⟩,
                        acc.items
                          ++ [extractFetchItem origin (idOpt.getD "") e],
                        mapSet acc.fmap (idOpt.getD "") e,
                        acc.renders, acc.aborted⟩ : ScanResult) := by
                  simp [fastFold, hge, ht, hp, hb, hc]
                rw [he]
                obtain ⟨ext, h1, h2, h3, h4, h5⟩ := fastFold_spec origin rest
                  (⟨⟨mapSet acc.state.pending (idOpt.getD "") e,
                      acc.state.itemCache⟩,
                    acc.items
                      ++ [extractFetchItem origin (idOpt.getD "") e],
                    mapSet acc.fmap (idOpt.getD "") e,
                    acc.renders, acc.aborted⟩ : ScanResult)
                have hset : mapSet acc.state.pending (idOpt.getD "") e
                    = acc.state.pending ++ [(idOpt.getD "", e)] :=
                  mapSet_fresh _ _ _ hp
                refine ⟨(idOpt.getD "", e) :: ext, ?_, ?_, ?_, ?_, ?_⟩
                · rw [h1]
                  show mapSet acc.state.pending (idOpt.getD "") e ++ ext = _
                  rw [hset]
                  simp
                · rw [h2]
                  show (acc.items
                      ++ [extractFetchItem origin (idOpt.getD "") e]).map
                      (·.id) ++ ext.map (·.1) = _
                  simp [extractFetchItem_id]
                · intro k hk
                  rcases List.mem_cons.mp hk with rfl | hk'
                  · exact hp
                  · have h6 : mapHas
                        (acc.state.pending ++ [(idOpt.getD "", e)]) k
                        = false := by
                      rw [← hset]
                      exact h3 k hk'
                    rw [mapHas_append] at h6
                    exact (Bool.or_eq_false_iff.mp h6).1
                · refine List.nodup_cons.mpr ⟨?_, h4⟩
                  intro hmem
                  have h6 : mapHas
                      (acc.state.pending ++ [(idOpt.getD "", e)])
                      (idOpt.getD "") = false := by
                    rw [← hset]
                    exact h3 _ hmem
                  rw [mapHas_append] at h6
                  have h7 := (Bool.or_eq_false_iff.mp h6).2
                  simp [mapHas, List.find?] at h7
                · rw [h5]
              · -- pending: skipped
                simp only [fastFold, hb, if_false, hge, ht, Bool.not_true,
                  hc, hp, if_true]
                exact fastFold_spec origin rest acc
            · -- cached: immediate render, nothing batched
              simp only [fastFold, hb, if_false, hge, ht, Bool.not_true, hc]
              exact fastFold_spec origin rest
                { acc with renders := acc.renders ++ [(e, cached)] }
      · -- already rendered: skipped outright
        simp only [fastFold, hb, if_true]
        exact fastFold_spec origin rest acc

/-! ### The single-flight invariant is preserved by every engine step -/

theorem inflightIds_resolve_sublist
    (pre post : List (List FetchItem × List (String × Dom)))
    (b : List FetchItem × List (String × Dom)) (cs cs' : CState)
    (en en' : List Dom) :
    List.Sublist (inflightIds ⟨cs', pre ++ post, en'⟩)
      (inflightIds ⟨cs, pre ++ b :: post, en⟩) := by
  simp only [inflightIds, List.map_append, List.flatten_append,
    List.map_cons, List.flatten_cons]
  exact List.Sublist.append_left
    (List.sublist_append_right _ _) _

theorem not_mem_resolved_batch
    (pre post : List (List FetchItem × List (String × Dom)))
    (b : List FetchItem × List (String × Dom)) (cs : CState)
    (en : List Dom) (id : String)
    (hnd : (inflightIds ⟨cs, pre ++ b :: post, en⟩).Nodup)
    (hmem : id ∈ inflightIds ⟨cs, pre ++ post, en⟩) :
    id ∉ b.1.map (·.id) := by
  simp only [inflightIds, List.map_append, List.flatten_append,
    List.map_cons, List.flatten_cons] at hnd hmem
  rcases List.mem_append.mp hmem with hA | hB
  · have hd := (List.nodup_append.mp hnd).2.2
    intro hid
    exact hd hA (List.mem_append_left _ hid)
  · have hgbB := (List.nodup_append.mp hnd).2.1
    have hd := (List.nodup_append.mp hgbB).2.2
    intro hid
    exact hd hid hB

theorem resolve_preserves_inv (s : Sys)
    (pre post : List (List FetchItem × List (String × Dom)))
    (b : List FetchItem × List (String × Dom))
    (h : s.inflight = pre ++ b :: post) (hinv : SysInv s) (cs' : CState)
    (hcs : cs'.pending = releaseBatch b.1 s.cs.pending) (en' : List Dom)
    (hen : en' = s.entries) :
    SysInv ⟨cs', pre ++ post, en'⟩ := by
  obtain ⟨hpk, hifl, hsub⟩ := hinv
  have hifl' : (inflightIds ⟨s.cs, pre ++ b :: post, s.entries⟩).Nodup := by
    rw [show (⟨s.cs, pre ++ b :: post, s.entries⟩ : Sys)
        = { s with inflight := pre ++ b :: post } from rfl, ← h]
    exact hifl
  refine ⟨?_, ?_, ?_⟩
  · show (cs'.pending.map (·.1)).Nodup
    rw [hcs]
    exact List.Nodup.sublist (releaseBatch_keys_sublist b.1 s.cs.pending) hpk
  · exact List.Nodup.sublist
      (inflightIds_resolve_sublist pre post b s.cs cs' s.entries en') hifl'
  · intro id hid
    have hid0 : id ∈ inflightIds ⟨s.cs, pre ++ post, s.entries⟩ := hid
    have hidS : id ∈ inflightIds s := by
      have hsubl := inflightIds_resolve_sublist pre post b s.cs s.cs
        s.entries s.entries
      have := hsubl.subset hid0
      rw [show (⟨s.cs, pre ++ b :: post, s.entries⟩ : Sys)
          = { s with inflight := pre ++ b :: post } from rfl, ← h] at this
      exact this
    have hpend : id ∈ pendingKeys s := hsub id hidS
    have hnot : id ∉ b.1.map (·.id) :=
      not_mem_resolved_batch pre post b s.cs s.entries id hifl' hid0
    show id ∈ cs'.pending.map (·.1)
    rw [hcs]
    exact releaseBatch_keeps b.1 s.cs.pending id hpend hnot

/-- The per-pass invariant argument shared by the scan and fast steps:
the pass appends only fresh, duplicate-free ids to the pending map, and
its batch (when sent) carries exactly those ids. -/
theorem extend_preserves_inv (s : Sys) (r : ScanResult)
    (ext : List (String × Dom))
    (h1 : r.state.pending = s.cs.pending ++ ext)
    (h2 : r.items.map (·.id) = ext.map (·.1))
    (h3 : ∀ k ∈ ext.map (·.1), mapHas s.cs.pending k = false)
    (h4 : (ext.map (·.1)).Nodup)
    (hinv : SysInv s) (cond : Prop) [Decidable cond] :
    SysInv ⟨r.state,
      if cond then s.inflight ++ [(r.items, r.fmap)] else s.inflight,
      s.entries⟩ := by
  obtain ⟨hpk, hifl, hsub⟩ := hinv
  have hfresh : ∀ k ∈ ext.map (·.1), k ∉ pendingKeys s := by
    intro k hk hmem
    have hhas := (mapHas_iff s.cs.pending k).mpr hmem
    rw [h3 k hk] at hhas
    exact absurd hhas (by simp)
  have hpk' : (pendingKeys ⟨r.state, s.inflight, s.entries⟩).Nodup := by
    show (r.state.pending.map (·.1)).Nodup
    rw [h1, List.map_append]
    exact List.nodup_append.mpr
      ⟨hpk, h4, fun a ha hb => hfresh a hb ha⟩
  have hmemP : ∀ id, id ∈ pendingKeys s ∨ id ∈ ext.map (·.1) →
      id ∈ r.state.pending.map (·.1) := by
    intro id hid
    rw [h1, List.map_append]
    rcases hid with hid | hid
    · exact List.mem_append_left _ hid
    · exact List.mem_append_right _ hid
  by_cases hc : cond
  · rw [if_pos hc]
    have he : inflightIds ⟨r.state,
        s.inflight ++ [(r.items, r.fmap)], s.entries⟩
        = inflightIds s ++ ext.map (·.1) := by
      simp [inflightIds, List.map_append, List.flatten_append, h2]
    refine ⟨hpk', ?_, ?_⟩
    · show (inflightIds ⟨r.state,
        s.inflight ++ [(r.items, r.fmap)], s.entries⟩).Nodup
      rw [he]
      refine List.nodup_append.mpr ⟨hifl, h4, ?_⟩
      intro a ha hb
      exact hfresh a hb (hsub a ha)
    · intro id hid
      rw [he] at hid
      show id ∈ r.state.pending.map (·.1)
      rcases List.mem_append.mp hid with hid | hid
      · exact hmemP id (Or.inl (hsub id hid))
      · exact hmemP id (Or.inr hid)
  · rw [if_neg hc]
    refine ⟨hpk', ?_, ?_⟩
    · show (inflightIds ⟨r.state, s.inflight, s.entries⟩).Nodup
      exact hifl
    · intro id hid
      show id ∈ r.state.pending.map (·.1)
      exact hmemP id (Or.inl (hsub id hid))

theorem step_preserves_inv (origin : String) {s s' : Sys}
    (hstep : Step origin s s') (hinv : SysInv s) : SysInv s' := by
  cases hstep with
  | host newEntries => exact hinv
  | scan =>
      obtain ⟨ext, h1, h2, h3, h4, _⟩ :=
        scanFold_spec origin s.entries ⟨s.cs, [], [], [], false⟩
      have h2' : (scanEntriesRun origin s.entries s.cs).items.map (·.id)
          = ext.map (·.1) := by simpa using h2
      exact extend_preserves_inv s (scanEntriesRun origin s.entries s.cs)
        ext h1 h2' h3 h4 hinv _
  | fast cands =>
      obtain ⟨ext, h1, h2, h3, h4, _⟩ :=
        fastFold_spec origin cands ⟨s.cs, [], [], [], false⟩
      have h2' : (fastRun origin cands s.cs).items.map (·.id)
          = ext.map (·.1) := by simpa using h2
      exact extend_preserves_inv s (fastRun origin cands s.cs)
        ext h1 h2' h3 h4 hinv _
  | respond pre post b resp h =>
      exact resolve_preserves_inv s pre post b h hinv _
        (handleScores_pending b.2 resp b.1 s.cs) _ rfl
  | fail pre post b h =>
      exact resolve_preserves_inv s pre post b h hinv _ rfl _ rfl

/-- **C1** Single-flight per identity: in every state the engine can
reach, the pending map binds each identity at most once, an identity
occurs in at most one in-flight `get_scores` batch (and once in it), and
every in-flight identity is held in the pending map; moreover both the
full scan and the fast path skip any entry whose identity is currently
pending, so no second request for an identity is issued before the first
resolves. -/
theorem single_flight_per_identity :
    (∀ (origin : String) (entries0 : List Dom) (s : Sys),
      Reach origin entries0 s → SysInv s) ∧
    (∀ (origin : String) (e : Dom) (es : List Dom) (acc : ScanResult)
      (idOpt : Option String),
      getEntryId e = .ok idOpt → truthyS idOpt = true →
      mapHas acc.state.pending (idOpt.getD "") = true →
      scanFold origin (e :: es) acc = scanFold origin es acc) ∧
    (∀ (origin : String) (e : Dom) (es : List Dom) (acc : ScanResult)
      (idOpt : Option String),
      (e.qselB selBadge || e.qselB selAnalyzeBtn) = false →
      getEntryId e = .ok idOpt → truthyS idOpt = true →
      mapGet acc.state.itemCache (idOpt.getD "") = none →
      mapHas acc.state.pending (idOpt.getD "") = true →
      fastFold origin (e :: es) acc = fastFold origin es acc) := by
  refine ⟨?_, ?_, ?_⟩
  · intro origin entries0 s h
    induction h with
    | refl =>
        exact ⟨by simp [pendingKeys, initSys],
          by simp [inflightIds, initSys],
          by simp [inflightIds, initSys]⟩
    | tail hte hstep ih => exact step_preserves_inv origin hstep ih
  · intro origin e es acc idOpt hge ht hp
    simp [scanFold, hge, ht, hp]
  · intro origin e es acc idOpt hb hge ht hc hp
    simp [fastFold, hb, hge, ht, hc, hp]

/-- Witness for `single_flight_per_identity`: the invariant holds in the
freshly loaded engine, and a scan pass over one already-pending entry
changes nothing. -/
theorem single_flight_per_identity_witness :
    SysInv (initSys []) ∧
    scanFold "o" [plainEntry "a1"]
        ⟨⟨[("a1", plainEntry "a1")], []⟩, [], [], [], false⟩
      = scanFold "o" []
        ⟨⟨[("a1", plainEntry "a1")], []⟩, [], [], [], false⟩ :=
  ⟨single_flight_per_identity.1 "o" [] (initSys [])
      Relation.ReflTransGen.refl,
    single_flight_per_identity.2.1 "o" (plainEntry "a1") []
      ⟨⟨[("a1", plainEntry "a1")], []⟩, [], [], [], false⟩ (some "a1")
      rfl (by decide) (by decide)⟩

/-- **C2 counterexample** The completion handler does not look the node
up again in the document: after the node for identity `a3` is removed
(document empty), the source's `handleScores` still performs a render —
against the node captured at request time — while the handler the
specification describes (`handleScoresSpecLive`, completion-time lookup)
would no-op.  The two observably differ on this input. -/
theorem respond_captured_counterexample :
    ((handleScoresSpecLive []
        (some ⟨some [("a3", ⟨"a3", true, none, none⟩)]⟩)
        (scanEntriesRun "o" [plainEntry "a3"] ⟨[], []⟩).items
        (scanEntriesRun "o" [plainEntry "a3"] ⟨[], []⟩).state).2).length
      = 0 ∧
    ((handleScores
        (scanEntriesRun "o" [plainEntry "a3"] ⟨[], []⟩).fmap
        (some ⟨some [("a3", ⟨"a3", true, none, none⟩)]⟩)
        (scanEntriesRun "o" [plainEntry "a3"] ⟨[], []⟩).items
        (scanEntriesRun "o" [plainEntry "a3"] ⟨[], []⟩).state).2).length
      = 1 := by
  exact ⟨rfl, rfl⟩

/-- **C2 (amended)** When a batched `get_scores` response arrives, for
each identity of the batch a verdict present in the response map is
stored in the local cache; the render is handed to the reconciler
against the node captured at request time — the request's `map`, falling
back to the pending map — with no completion-time document lookup, so a
node removed from the document after the request still receives its
render (into the captured, now detached node) rather than silently
no-oping; no exception is raised and no orphan entry is left pending:
every batched identity is released from the pending map. -/
theorem respond_caches_and_renders_captured
    (fmap : List (String × Dom)) (resp : Option ScoresResp)
    (fis : List FetchItem) (st : CState) :
    (∀ fi ∈ fis, (fis.map (·.id)).Nodup →
      mapGet ((handleScores fmap resp fis st).1).itemCache fi.id
        = (match mapGet (respItemsOf resp) fi.id with
           | some item => some item
           | none => mapGet st.itemCache fi.id)) ∧
    ((handleScores fmap resp fis st).1).pending
      = releaseBatch fis st.pending ∧
    (∀ fi ∈ fis,
      mapHas ((handleScores fmap resp fis st).1).pending fi.id = false) ∧
    (∀ fi ∈ fis, ∀ e : Dom, mapGet fmap fi.id = some e →
      (e, mapGet (respItemsOf resp) fi.id)
        ∈ (handleScores fmap resp fis st).2) := by
  refine ⟨?_, handleScores_pending fmap resp fis st, ?_, ?_⟩
  · intro fi hmem hnd
    exact handleScores_cache_of_mem fmap resp fis st fi hmem hnd
  · intro fi hmem
    rw [handleScores_pending fmap resp fis st]
    exact releaseBatch_not_has fis st.pending fi hmem
  · intro fi hmem e hget
    exact handleScores_renders_mem fmap resp fis st fi e hmem hget

/-- Witness for `respond_caches_and_renders_captured`: one batched
identity with a captured node, a response carrying its verdict. -/
theorem respond_caches_and_renders_captured_witness :
    mapGet ((handleScores [("a3", plainEntry "a3")]
        (some ⟨some [("a3", ⟨"a3", true, none, none⟩)]⟩)
        [⟨"a3", "t", none, "s"⟩] ⟨[("a3", plainEntry "a3")], []⟩).1).itemCache
        "a3" = some ⟨"a3", true, none, none⟩ ∧
    mapHas ((handleScores [("a3", plainEntry "a3")]
        (some ⟨some [("a3", ⟨"a3", true, none, none⟩)]⟩)
        [⟨"a3", "t", none, "s"⟩] ⟨[("a3", plainEntry "a3")], []⟩).1).pending
        "a3" = false ∧
    (plainEntry "a3",
        mapGet (respItemsOf (some ⟨some [("a3", ⟨"a3", true, none, none⟩)]⟩))
          "a3")
      ∈ (handleScores [("a3", plainEntry "a3")]
        (some ⟨some [("a3", ⟨"a3", true, none, none⟩)]⟩)
        [⟨"a3", "t", none, "s"⟩] ⟨[("a3", plainEntry "a3")], []⟩).2 := by
  refine ⟨?_, ?_, ?_⟩
  · have h := (respond_caches_and_renders_captured
      [("a3", plainEntry "a3")]
      (some ⟨some [("a3", ⟨"a3", true, none, none⟩)]⟩)
      [⟨"a3", "t", none, "s"⟩] ⟨[("a3", plainEntry "a3")], []⟩).1
      ⟨"a3", "t", none, "s"⟩ (by simp) (by simp)
    exact h.trans rfl
  · exact (respond_caches_and_renders_captured
      [("a3", plainEntry "a3")]
      (some ⟨some [("a3", ⟨"a3", true, none, none⟩)]⟩)
      [⟨"a3", "t", none, "s"⟩] ⟨[("a3", plainEntry "a3")], []⟩).2.2.1
      ⟨"a3", "t", none, "s"⟩ (by simp)
  · exact (respond_caches_and_renders_captured
      [("a3", plainEntry "a3")]
      (some ⟨some [("a3", ⟨"a3", true, none, none⟩)]⟩)
      [⟨"a3", "t", none, "s"⟩] ⟨[("a3", plainEntry "a3")], []⟩).2.2.2
      ⟨"a3", "t", none, "s"⟩ (by simp) (plainEntry "a3") rfl

/-- **C3** A channel failure on a batched `get_scores` request releases
every identity of that batch from the pending map, writes nothing to the
verdict cache, and renders nothing (the failure handler's whole effect is
the pending release); in the design document's scenario — a batch of 3
new identities — all 3 return to non-pending and the next scan batches
all 3 again. -/
theorem channel_failure_releases :
    (∀ (batch : List FetchItem) (st : CState),
      (handleScoresFailure batch st).itemCache = st.itemCache) ∧
    (∀ (batch : List FetchItem) (st : CState), ∀ fi ∈ batch,
      mapHas (handleScoresFailure batch st).pending fi.id = false) ∧
    ((scanEntriesRun "o"
        [plainEntry "a1", plainEntry "a2", plainEntry "a3"]
        ⟨[], []⟩).items.map (·.id) = ["a1", "a2", "a3"] ∧
      (handleScoresFailure
        (scanEntriesRun "o"
          [plainEntry "a1", plainEntry "a2", plainEntry "a3"]
          ⟨[], []⟩).items
        (scanEntriesRun "o"
          [plainEntry "a1", plainEntry "a2", plainEntry "a3"]
          ⟨[], []⟩).state).pending = [] ∧
      (scanEntriesRun "o"
        [plainEntry "a1", plainEntry "a2", plainEntry "a3"]
        (handleScoresFailure
          (scanEntriesRun "o"
            [plainEntry "a1", plainEntry "a2", plainEntry "a3"]
            ⟨[], []⟩).items
          (scanEntriesRun "o"
            [plainEntry "a1", plainEntry "a2", plainEntry "a3"]
            ⟨[], []⟩).state)).items.map (·.id) = ["a1", "a2", "a3"]) := by
  refine ⟨fun batch st => rfl, ?_, rfl, rfl, rfl⟩
  intro batch st fi hmem
  exact releaseBatch_not_has batch st.pending fi hmem

/-- Witness for `channel_failure_releases`: a single-identity batch. -/
theorem channel_failure_releases_witness :
    mapHas (handleScoresFailure [⟨"a1", "t", none, "s"⟩]
        ⟨[("a1", plainEntry "a1")], []⟩).pending "a1" = false :=
  channel_failure_releases.2.1 [⟨"a1", "t", none, "s"⟩]
    ⟨[("a1", plainEntry "a1")], []⟩ ⟨"a1", "t", none, "s"⟩ (by simp)

/-- **C4** A verdict merged into the background cache at time `T` is a
cache hit (not in the `missing` list, so no outbound native-host request
carries its id) when looked up at `T + TTL − ε` for `0 < ε ≤ TTL`, and is
stale (its id is in the `missing` list, hence is carried by the fresh
outbound request) at `T + TTL + ε`, with `TTL = CACHE_TTL_MS` = 30
seconds. -/
theorem cache_ttl_boundary {V : Type} (cache : CacheMap V) (id : String)
    (v : V) (T ε : Nat) (hε0 : 0 < ε) (hεT : ε ≤ CACHE_TTL_MS) :
    (getCached (mergeCache cache T [(id, v)]) (T + CACHE_TTL_MS - ε) [id]
        = ([(id, v)], []) ∧
      nativeRequestIds (mergeCache cache T [(id, v)])
        (T + CACHE_TTL_MS - ε) [id] = []) ∧
    (getCached (mergeCache cache T [(id, v)]) (T + CACHE_TTL_MS + ε) [id]
        = ([], [id]) ∧
      nativeRequestIds (mergeCache cache T [(id, v)])
        (T + CACHE_TTL_MS + ε) [id] = [id]) := by
  have hget : mapGet (mergeCache cache T [(id, v)]) id
      = some (⟨T, v⟩ : CacheEntry V) := by
    simpa [mergeCache] using mapGet_mapSet_self cache id (⟨T, v⟩ : CacheEntry V)
  have hfresh : T + CACHE_TTL_MS - ε - T < CACHE_TTL_MS := by omega
  have hstale : ¬ (T + CACHE_TTL_MS + ε - T < CACHE_TTL_MS) := by omega
  refine ⟨⟨?_, ?_⟩, ?_, ?_⟩ <;>
    simp [getCached, nativeRequestIds, hget, hfresh, hstale]

/-- Witness for `cache_ttl_boundary` at `T = 1000`, `ε = 1`, over the
empty cache. -/
theorem cache_ttl_boundary_witness :
    (0 < 1 ∧ 1 ≤ CACHE_TTL_MS) ∧
    ((getCached (mergeCache ([] : CacheMap Nat) 1000 [("a1", 7)])
          (1000 + CACHE_TTL_MS - 1) ["a1"] = ([("a1", 7)], []) ∧
        nativeRequestIds (mergeCache ([] : CacheMap Nat) 1000 [("a1", 7)])
          (1000 + CACHE_TTL_MS - 1) ["a1"] = []) ∧
      (getCached (mergeCache ([] : CacheMap Nat) 1000 [("a1", 7)])
          (1000 + CACHE_TTL_MS + 1) ["a1"] = ([], ["a1"]) ∧
        nativeRequestIds (mergeCache ([] : CacheMap Nat) 1000 [("a1", 7)])
          (1000 + CACHE_TTL_MS + 1) ["a1"] = ["a1"])) :=
  ⟨⟨Nat.one_pos, by decide⟩,
    cache_ttl_boundary ([] : CacheMap Nat) "a1" 7 1000 1 Nat.one_pos
      (by decide)⟩

/-- **C6** Debounce coalescing: a burst of `n ≥ 1` mutation notifications
delivered within the debounce window (i.e. all before the single armed
200 ms timer fires), none handled by the fast path, schedules and executes
exactly one scan pass: after the timer fires and the queued animation
frame runs, the scan counter has increased by exactly one and the
scheduler is idle again, so no further pass can run without a new
notification. -/
theorem debounce_coalescing (n : Nat) (hn : 1 ≤ n) :
    rafFire (timerFire (burst n idleSched))
      = { debounceTimer := false, scheduled := false,
          scans := idleSched.scans + 1 } ∧
    timerFire (rafFire (timerFire (burst n idleSched)))
      = rafFire (timerFire (burst n idleSched)) ∧
    rafFire (rafFire (timerFire (burst n idleSched)))
      = rafFire (timerFire (burst n idleSched)) := by
  have hb : burst n idleSched = ⟨true, false, 0⟩ := by
    induction n with
    | zero => omega
    | succ m ih =>
        cases Nat.eq_zero_or_pos m with
        | inl h0 => simp [h0, burst, debouncedScan, idleSched]
        | inr hm => simp [burst, ih hm, debouncedScan]
  rw [hb]
  decide

/-- Witness for `debounce_coalescing` with a burst of 3 notifications. -/
theorem debounce_coalescing_witness :
    1 ≤ 3 ∧
    rafFire (timerFire (burst 3 idleSched))
      = { debounceTimer := false, scheduled := false,
          scans := idleSched.scans + 1 } :=
  ⟨by decide, (debounce_coalescing 3 (by decide)).1⟩

/-- **C9** Viewport clamping: whenever the pointer lies inside the
viewport (`clientX ≤ winWidth`, `clientY ≤ winHeight`), the position
assigned by `updateTooltipPos` keeps the tooltip's bounding box inside the
right and bottom viewport edges: `left + width ≤ winWidth` and
`top + height ≤ winHeight`; in the overflowing cases the tooltip has been
flipped to the opposite side of the pointer by its own width/height plus
the offset. -/
theorem tooltip_clamped (e : TooltipEnv) (hx : e.clientX ≤ e.winWidth)
    (hy : e.clientY ≤ e.winHeight) :
    (updateTooltipPos e).1 + e.width ≤ e.winWidth ∧
    (updateTooltipPos e).2 + e.height ≤ e.winHeight := by
  unfold updateTooltipPos
  constructor
  · by_cases h : e.clientX + 10 + e.width > e.winWidth
    · simp only [h, if_true]
      linarith
    · simp only [h, if_false]
      linarith [not_lt.mp h]
  · by_cases h : e.clientY + 10 + e.height > e.winHeight
    · simp only [h, if_true]
      linarith
    · simp only [h, if_false]
      linarith [not_lt.mp h]

/-- Witness for `tooltip_clamped`: pointer at (1900, 1000) in a 1920×1080
viewport with a 300×200 tooltip (the default position would overflow both
edges, so both axes flip). -/
theorem tooltip_clamped_witness :
    ((1900 : Rat) ≤ 1920 ∧ (1000 : Rat) ≤ 1080) ∧
    ((updateTooltipPos ⟨1900, 1000, 300, 200, 1920, 1080⟩).1 + 300 ≤ 1920 ∧
      (updateTooltipPos ⟨1900, 1000, 300, 200, 1920, 1080⟩).2 + 200 ≤ 1080) :=
  ⟨⟨by norm_num, by norm_num⟩,
    tooltip_clamped ⟨1900, 1000, 300, 200, 1920, 1080⟩ (by norm_num)
      (by norm_num)⟩

end FeedlyAI
